import Mathlib

/-!
# The per-CPU physical page allocator of `Chapter05/kalloc.c`

A shallow embedding of the allocator: physical memory is a byte map, each
`kmem[i].freelist` is a head pointer, and the free list of a pool is the chain
of `next` pointers stored in the first eight bytes of every free page, exactly
as `struct run` lays it out.  The functions below follow `kalloc.c` statement by
statement; `cpuid()` is an explicit argument, `panic` is an outcome, and the
`acquire`/`release` calls are recorded in program order.
-/

namespace Kalloc

/-! ## Constants supplied by headers -/

/-- Modelled from the spec: `PGSIZE` is defined in `riscv.h`, which is not part
of the sources; the specification (and the header comment of `kalloc.c`) fix the
page size at 4096 bytes. -/
def PGSIZE : Nat := 4096

/-- Largest value of a C `int` on the target (32 bits, two's complement). -/
def INT_MAX : Nat := 2147483647

/-- Platform constants that `kalloc.c` takes from `param.h`, `memlayout.h` and the
linker script: the number of CPUs, the address of `end` (first address after the
kernel, written `kend` because `end` is reserved), and `PHYSTOP`.  Three facts hold
for every configuration the file can be built for: `kmem[NCPU]` is an array, so
`NCPU` is positive; `end` is the address of an object, so it is not the null
pointer; and `PHYSTOP` is compared with `uint64` values, so it fits in 64 bits. -/
structure Layout where
  NCPU : Nat
  kend : Nat
  PHYSTOP : Nat
  NCPU_pos : 0 < NCPU
  kend_pos : 0 < kend
  PHYSTOP_lt : PHYSTOP < 2 ^ 64

/-- Modelled from the spec: `PGROUNDUP` is a macro of `riscv.h`, not part of the
sources; the specification says the start of the range is rounded up to a page
boundary.  The arithmetic is done on `uint64`, hence the reduction modulo `2^64`. -/
def PGROUNDUP (sz : Nat) : Nat := (sz + PGSIZE - 1) % 2 ^ 64 / PGSIZE * PGSIZE

/-! ## Memory -/

/-- Physical memory: a byte for every address.  The map is total: a load from an
address with no memory behind it yields a byte here, where the machine would
fault, so concrete states are only evaluated where every load is from a page of
the managed range. -/
abbrev Mem := Nat → Nat

/-- Modelled from the spec: `memset` is the kernel's own routine (in `string.c`,
not part of the sources); the specification says the page content is overwritten
with the fill byte.  `memset(dst, c, n)`: `n` bytes from `dst` become
`(unsigned char)c`. -/
def memset (m : Mem) (dst c n : Nat) : Mem :=
  fun x => if dst ≤ x ∧ x < dst + n then c % 256 else m x

/-- Reading a 64-bit little-endian word (a `struct run *`) at address `a`. -/
def load64 (m : Mem) (a : Nat) : Nat :=
  m a % 256 + 256 * (m (a + 1) % 256) + 256 ^ 2 * (m (a + 2) % 256)
    + 256 ^ 3 * (m (a + 3) % 256) + 256 ^ 4 * (m (a + 4) % 256)
    + 256 ^ 5 * (m (a + 5) % 256) + 256 ^ 6 * (m (a + 6) % 256)
    + 256 ^ 7 * (m (a + 7) % 256)

/-- Writing a 64-bit little-endian word `v` at address `a`. -/
def store64 (m : Mem) (a v : Nat) : Mem :=
  fun x => if a ≤ x ∧ x < a + 8 then v / 256 ^ (x - a) % 256 else m x

/-! ## Allocator state -/

/-- One `acquire` or `release` of `kmem[i].lock`. -/
inductive LockEvent where
  | acquire (i : Nat)
  | release (i : Nat)
  deriving DecidableEq

/-- The global state the allocator works on: physical memory, the head pointer
`kmem[i].freelist` of every pool (0 is the null pointer), and the lock operations
performed so far, oldest first. -/
structure Kmem where
  mem : Mem
  freelist : Nat → Nat
  locks : List LockEvent

/-- Assignment to one element of the `kmem` array. -/
def setHead (f : Nat → Nat) (i v : Nat) : Nat → Nat :=
  fun j => if j = i then v else f j

/-- Modelled from the spec: `acquire` is defined in `spinlock.c`, not part of the
sources; the specification describes it as taking a mutual-exclusion lock.  The
call `acquire(&kmem[i].lock)` is recorded in the log of lock events. -/
def acquire (s : Kmem) (i : Nat) : Kmem :=
  { s with locks := s.locks ++ [LockEvent.acquire i] }

/-- Modelled from the spec: `release` is defined in `spinlock.c`, not part of the
sources; the specification describes it as giving the lock back.  The call
`release(&kmem[i].lock)` is recorded in the log of lock events. -/
def release (s : Kmem) (i : Nat) : Kmem :=
  { s with locks := s.locks ++ [LockEvent.release i] }

/-- How a procedure of the allocator ends: it returns, it calls `panic` (which
never returns; the state is the one `panic` was called in), or the `int` page
counter of `freerange` overflows. -/
inductive Result where
  | done (s : Kmem)
  | panic (s : Kmem)
  | overflow

/-! ## The procedures of `kalloc.c` -/

/-- The function `kfree_first(pa, cpu_index)`. -/
def kfree_first (L : Layout) (s : Kmem) (pa cpu_index : Nat) : Result :=
  if pa % PGSIZE ≠ 0 ∨ pa < L.kend ∨ pa ≥ L.PHYSTOP then
    Result.panic s
  else
    let s1 : Kmem := { s with mem := memset s.mem pa 1 PGSIZE }
    let r := pa
    let s2 := acquire s1 cpu_index
    let s3 : Kmem := { s2 with mem := store64 s2.mem r (s2.freelist cpu_index) }
    let s4 : Kmem := { s3 with freelist := setHead s3.freelist cpu_index r }
    Result.done (release s4 cpu_index)

/-- The loop of `freerange`.  The first argument is the head-room of the `int`
counter, `INT_MAX - i`: the increment `i++` is only defined while it is positive. -/
def freerange_loop (L : Layout) (pa_end : Nat) : Nat → Nat → Nat → Kmem → Result
  | 0, p, _, s =>
    if (p + PGSIZE) % 2 ^ 64 ≤ pa_end then
      Result.overflow
    else
      Result.done s
  | room + 1, p, i, s =>
    if (p + PGSIZE) % 2 ^ 64 ≤ pa_end then
      match kfree_first L s p ((i + 1) % L.NCPU) with
      | Result.done s1 => freerange_loop L pa_end room ((p + PGSIZE) % 2 ^ 64) (i + 1) s1
      | r => r
    else
      Result.done s

/-- The function `freerange(pa_start, pa_end)`. -/
def freerange (L : Layout) (s : Kmem) (pa_start pa_end : Nat) : Result :=
  freerange_loop L pa_end INT_MAX (PGROUNDUP pa_start) 0 s

/-- The state before `kinit`: `kmem` is a zero-initialised global, so every
`freelist` is null; memory holds whatever the boot left there. -/
def boot (mem0 : Mem) : Kmem :=
  { mem := mem0, freelist := fun _ => 0, locks := [] }

/-- The function `kinit()`.  `initlock` only names and clears the locks. -/
def kinit (L : Layout) (mem0 : Mem) : Result :=
  freerange L (boot mem0) L.kend L.PHYSTOP

/-- The function `kfree(pa)` executed on the CPU `cpu` (the value of `cpuid()`). -/
def kfree (L : Layout) (s : Kmem) (cpu pa : Nat) : Result :=
  let cpu_index := cpu
  if pa % PGSIZE ≠ 0 ∨ pa < L.kend ∨ pa ≥ L.PHYSTOP then
    Result.panic s
  else
    let s1 : Kmem := { s with mem := memset s.mem pa 1 PGSIZE }
    let r := pa
    let s2 := acquire s1 cpu_index
    let s3 : Kmem := { s2 with mem := store64 s2.mem r (s2.freelist cpu_index) }
    let s4 : Kmem := { s3 with freelist := setHead s3.freelist cpu_index r }
    Result.done (release s4 cpu_index)

/-- The function `__kalloc(cpu_index)`: the returned pointer (0 for null) and the
state afterwards. -/
def __kalloc (s : Kmem) (cpu_index : Nat) : Nat × Kmem :=
  let s1 := acquire s cpu_index
  let r := s1.freelist cpu_index
  let s2 : Kmem :=
    if r ≠ 0 then { s1 with freelist := setHead s1.freelist cpu_index (load64 s1.mem r) }
    else s1
  let s3 := release s2 cpu_index
  if r ≠ 0 then (r, { s3 with mem := memset s3.mem r 5 PGSIZE })
  else (r, s3)

/-- The stealing loop of `kalloc`: `n` iterations remain, starting at `cpu_index`. -/
def kalloc_loop (cpu_id : Nat) : Nat → Nat → Kmem → Nat × Kmem
  | 0, _, s => (0, s)
  | n + 1, cpu_index, s =>
    if cpu_index = cpu_id then
      kalloc_loop cpu_id n (cpu_index + 1) s
    else
      let rs := __kalloc s cpu_index
      if rs.1 ≠ 0 then rs
      else kalloc_loop cpu_id n (cpu_index + 1) rs.2

/-- The function `kalloc()` executed on the CPU `cpu` (the value of `cpuid()`). -/
def kalloc (L : Layout) (s : Kmem) (cpu : Nat) : Nat × Kmem :=
  let cpu_id := cpu
  let rs := __kalloc s cpu_id
  if rs.1 ≠ 0 then rs
  else kalloc_loop cpu_id L.NCPU 0 rs.2

/-! ## Free lists as chains of `next` pointers -/

/-- A page address as the allocator hands it around: a non-null, page-aligned
64-bit pointer. -/
def IsPageAddr (a : Nat) : Prop := a ≠ 0 ∧ a % PGSIZE = 0 ∧ a < 2 ^ 64

instance (a : Nat) : Decidable (IsPageAddr a) := by unfold IsPageAddr; infer_instance

/-- The chain of `struct run` nodes that starts at pointer `h` and follows `next`
(the 64-bit word stored at the node's address) down to the null pointer consists
of exactly the page addresses `l`, in that order. -/
def lseg (m : Mem) : Nat → List Nat → Prop
  | h, [] => h = 0
  | h, a :: t => h = a ∧ IsPageAddr a ∧ lseg m (load64 m a) t

instance lsegDec (m : Mem) : (h : Nat) → (l : List Nat) → Decidable (lseg m h l)
  | h, [] => by unfold lseg; infer_instance
  | h, a :: t => by
      unfold lseg
      exact @instDecidableAnd _ _ _ (@instDecidableAnd _ _ _ (lsegDec m (load64 m a) t))

/-- The free list of pool `c` in state `s` is `l` (head first). -/
def FreeList (s : Kmem) (c : Nat) (l : List Nat) : Prop := lseg s.mem (s.freelist c) l

instance (s : Kmem) (c : Nat) (l : List Nat) : Decidable (FreeList s c l) := by
  unfold FreeList; infer_instance

/-- Replacing the list of pool `c` in a family of lists. -/
def setList (ls : Nat → List Nat) (c : Nat) (l : List Nat) : Nat → List Nat :=
  fun j => if j = c then l else ls j

/-- The addresses `kfree` and `kfree_first` accept: page-aligned and inside
`[end, PHYSTOP)`. -/
def ValidAddr (L : Layout) (pa : Nat) : Prop :=
  pa % PGSIZE = 0 ∧ L.kend ≤ pa ∧ pa < L.PHYSTOP

instance (L : Layout) (pa : Nat) : Decidable (ValidAddr L pa) := by
  unfold ValidAddr; infer_instance

/-- All free lists of all pools, pool 0 first. -/
def allFree (NCPU : Nat) (ls : Nat → List Nat) : List Nat :=
  (List.range NCPU).flatMap ls

/-- The pools of state `s` hold the lists `ls`, and no address occurs twice in
them: not within one list and not in two lists. -/
structure Pools (NCPU : Nat) (s : Kmem) (ls : Nat → List Nat) : Prop where
  repr : ∀ c, c < NCPU → FreeList s c (ls c)
  nodup : ∀ c, c < NCPU → (ls c).Nodup
  disj : ∀ c d, c < NCPU → d < NCPU → c ≠ d → ∀ a, a ∈ ls c → a ∉ ls d

/-- Memory and list heads are the same in both states (only the record of lock
operations may differ). -/
def Unchanged (s s1 : Kmem) : Prop := s1.mem = s.mem ∧ s1.freelist = s.freelist

/-- State `s1` is `s` after the head `r` of pool `j` was detached and its page
filled with the byte 5. -/
def Popped (s : Kmem) (j r : Nat) (s1 : Kmem) : Prop :=
  r = s.freelist j ∧ r ≠ 0 ∧ s1.mem = memset s.mem r 5 PGSIZE ∧
    s1.freelist = setHead s.freelist j (load64 s.mem r)

/-- State `s1` is `s` after page `p` was filled with the byte 1 and linked in as
the new head of pool `c`. -/
def Pushed (s : Kmem) (c p : Nat) (s1 : Kmem) : Prop :=
  s1.mem = store64 (memset s.mem p 1 PGSIZE) p (s.freelist c) ∧
    s1.freelist = setHead s.freelist c p

/-! ## The lists built by `freerange` -/

/-- The free lists after the first `n` iterations of the loop of `freerange`, run
from empty pools with first page `p0`: iteration `i` (counted from 1, as the code
increments `i` before using it) links page `p0 + (i - 1) * PGSIZE` in front of
pool `i % NCPU`. -/
def initLists (NCPU p0 : Nat) : Nat → Nat → List Nat
  | 0 => fun _ => []
  | n + 1 =>
    setList (initLists NCPU p0 n) ((n + 1) % NCPU)
      ((p0 + n * PGSIZE) :: initLists NCPU p0 n ((n + 1) % NCPU))

/-- Whether the procedure returned. -/
def Result.isDone : Result → Bool
  | Result.done _ => true
  | _ => false

/-- The state a procedure ended in (the state at boot if the counter overflowed). -/
def Result.state : Result → Kmem
  | Result.done s => s
  | Result.panic s => s
  | Result.overflow => boot (fun _ => 0)

/-! ## Sequences of calls -/

/-- A call made by some kernel code: `kalloc()` on a CPU, or `kfree(pa)` on a CPU. -/
inductive Call where
  | kalloc (cpu : Nat)
  | kfree (cpu pa : Nat)

/-- The allocator state together with the pages its callers hold: the addresses
returned by `kalloc` and not passed to `kfree` since. -/
structure Run where
  state : Kmem
  held : List Nat

/-- One call made by a well-behaved caller: the CPU exists, and `kfree` is only
called on a page that is currently held.  A call that breaks these rules, or a
`kfree` that panics, ends the run (`none`). -/
def Run.call (L : Layout) (x : Run) : Call → Option Run
  | Call.kalloc cpu =>
    if cpu < L.NCPU then
      let rs := kalloc L x.state cpu
      some { state := rs.2, held := if rs.1 ≠ 0 then rs.1 :: x.held else x.held }
    else none
  | Call.kfree cpu pa =>
    if cpu < L.NCPU ∧ pa ∈ x.held then
      match kfree L x.state cpu pa with
      | Result.done s1 => some { state := s1, held := x.held.erase pa }
      | _ => none
    else none

/-- A finite sequence of calls, first call first. -/
def Run.calls (L : Layout) : Run → List Call → Option Run
  | x, [] => some x
  | x, c :: cs =>
    match x.call L c with
    | some y => y.calls L cs
    | none => none

/-- The invariant of a run: the pools hold duplicate-free lists `ls` of addresses
that `kfree` accepts, the held pages are such addresses too, no page is held
twice, and no free page is held. -/
structure Inv (L : Layout) (x : Run) (ls : Nat → List Nat) : Prop where
  pools : Pools L.NCPU x.state ls
  validFree : ∀ c, c < L.NCPU → ∀ a, a ∈ ls c → ValidAddr L a
  validHeld : ∀ a, a ∈ x.held → ValidAddr L a
  heldNodup : x.held.Nodup
  apart : ∀ c, c < L.NCPU → ∀ a, a ∈ ls c → a ∉ x.held

/-- Consecutive `kalloc()` calls, one on each CPU of the list in turn: the
pointers they return, and the state after the last call. -/
def kallocs (L : Layout) : Kmem → List Nat → List Nat × Kmem
  | s, [] => ([], s)
  | s, c :: cs =>
    ((kalloc L s c).1 :: (kallocs L (kalloc L s c).2 cs).1, (kallocs L (kalloc L s c).2 cs).2)

/-! ## Concrete configurations used to exercise the theorems -/

/-- Two CPUs and the two pages 4096 and 8192. -/
def twoPages : Layout :=
  { NCPU := 2, kend := 4096, PHYSTOP := 12288,
    NCPU_pos := by decide, kend_pos := by decide, PHYSTOP_lt := by decide }

/-- Memory filled with zero bytes. -/
def zeroMem : Mem := fun _ => 0

/-- The state `kinit` returns for `twoPages`. -/
def twoPagesInit : Kmem := (kinit twoPages zeroMem).state

/-- A short run on `twoPages`: CPU 0 allocates twice (the second page is stolen
from CPU 1), then CPU 1 frees the first page. -/
def sampleCalls : List Call := [Call.kalloc 0, Call.kalloc 0, Call.kfree 1 8192]

/-- The run `sampleCalls` ends in this state. -/
def sampleRun : Run :=
  (Run.calls twoPages { state := twoPagesInit, held := [] } sampleCalls).getD
    { state := twoPagesInit, held := [] }

/-- Two CPUs, `end` at 4096, and a `PHYSTOP` that is one byte past the page
boundary 12288. -/
def oddTop : Layout :=
  { NCPU := 2, kend := 4096, PHYSTOP := 12289,
    NCPU_pos := by decide, kend_pos := by decide, PHYSTOP_lt := by decide }

/-- The state `kinit` returns for `oddTop`. -/
def oddTopInit : Kmem := (kinit oddTop zeroMem).state

/-- Three CPUs and the two pages 4096 and 8192: after `kinit` pool 0 is empty. -/
def threeCpus : Layout :=
  { NCPU := 3, kend := 4096, PHYSTOP := 12288,
    NCPU_pos := by decide, kend_pos := by decide, PHYSTOP_lt := by decide }

/-- The state `kinit` returns for `threeCpus`. -/
def threeCpusInit : Kmem := (kinit threeCpus zeroMem).state

/-- The state after CPU 0 of `twoPages` calls `kfree(4096)` right after `kinit`,
while page 4096 is still in the free list of pool 1 (a double free). -/
def doubleFreed : Kmem := (kfree twoPages twoPagesInit 0 4096).state

/-- The state after CPU 0 of `twoPages` calls `kalloc()` right after `kinit`; the
call returns page 8192. -/
def afterAlloc : Kmem := (kalloc twoPages twoPagesInit 0).2

/-- The state after CPU 1 then calls `kfree(8192)`: page 8192 is linked in front of
page 4096 in pool 1. -/
def freedAgain : Kmem := (kfree twoPages afterAlloc 1 8192).state

/-- The state after CPU 0 calls `kalloc()` in the state `doubleFreed`; the call
returns page 4096. -/
def reusedOnce : Kmem := (kalloc twoPages doubleFreed 0).2

/-- The state after CPU 1 then calls `kalloc()`; that call returns page 4096 again. -/
def reusedTwice : Kmem := (kalloc twoPages reusedOnce 1).2

/-! ## Lock discipline -/

/-- The events come in pairs: an `acquire` of a lock, directly followed by the
`release` of the same lock, before the next `acquire`. -/
def Paired : List LockEvent → Prop
  | [] => True
  | LockEvent.acquire i :: LockEvent.release j :: es => i = j ∧ Paired es
  | _ => False

/-- The locks held after a sequence of events, when the locks `h` were held before
it. -/
def holds : List Nat → List LockEvent → List Nat
  | h, [] => h
  | h, LockEvent.acquire i :: es => holds (i :: h) es
  | h, LockEvent.release i :: es => holds (h.erase i) es

/-- The lock events of one call: they come in acquire/release pairs, at no point
of the call is more than one lock held, and no lock is held at the end. -/
def OneLockAtATime (evs : List LockEvent) : Prop :=
  Paired evs ∧ (∀ n, (holds [] (evs.take n)).length ≤ 1) ∧ holds [] evs = []

/-- The state after CPU 2 of `threeCpus` calls `kfree(4096)` right after `kinit`,
while page 4096 is still in the free list of pool 1 (a double free). -/
def threeDoubleFreed : Kmem := (kfree threeCpus threeCpusInit 2 4096).state

/-- Whether the procedure ended in `panic`. -/
def Result.isPanic : Result → Bool
  | Result.panic _ => true
  | _ => false

/-- One CPU, with `end` and `PHYSTOP` both at the last page boundary below `2^64`. -/
def topOfMemory : Layout :=
  { NCPU := 1, kend := 2 ^ 64 - 4096, PHYSTOP := 2 ^ 64 - 4096,
    NCPU_pos := by decide, kend_pos := by decide, PHYSTOP_lt := by decide }

/-- One CPU and the two pages 4096 and 8192. -/
def oneCpu : Layout :=
  { NCPU := 1, kend := 4096, PHYSTOP := 12288,
    NCPU_pos := by decide, kend_pos := by decide, PHYSTOP_lt := by decide }

/-- The state `kinit` returns for `oneCpu`. -/
def oneCpuInit : Kmem := (kinit oneCpu zeroMem).state

/-- The pool whose lock an event takes or gives back. -/
def LockEvent.index : LockEvent → Nat
  | LockEvent.acquire i => i
  | LockEvent.release i => i

/-- The lock events of the first `n` iterations of the loop of `freerange`: the
iteration in which the counter has the value `i` after `i++` (so `i` runs from 1
to `n`) calls `kfree_first(p, i % NCPU)`, which takes and gives back the lock of
pool `i % NCPU`. -/
def initLocks (NCPU : Nat) : Nat → List LockEvent
  | 0 => []
  | n + 1 =>
    initLocks NCPU n ++
      [LockEvent.acquire ((n + 1) % NCPU), LockEvent.release ((n + 1) % NCPU)]

/-- Three CPUs and a page-aligned `PHYSTOP = 2^45` above `end = 4096`: the range
holds `2^33 - 1` whole pages, more than an `int` can count. -/
def hugeRange : Layout :=
  { NCPU := 3, kend := 4096, PHYSTOP := 2 ^ 45,
    NCPU_pos := by decide, kend_pos := by decide, PHYSTOP_lt := by decide }

/-! ## Memory lemmas -/

theorem load64_lt (m : Mem) (a : Nat) : load64 m a < 2 ^ 64 := by
  unfold load64; omega

theorem load64_store64_same (m : Mem) (a v : Nat) (hv : v < 2 ^ 64) :
    load64 (store64 m a v) a = v := by
  unfold load64 store64
  simp
  omega

theorem load64_congr (m m1 : Mem) (a : Nat) (h : ∀ x, a ≤ x → x < a + 8 → m1 x = m x) :
    load64 m1 a = load64 m a := by
  unfold load64
  rw [h a (by omega) (by omega), h (a + 1) (by omega) (by omega), h (a + 2) (by omega) (by omega),
    h (a + 3) (by omega) (by omega), h (a + 4) (by omega) (by omega),
    h (a + 5) (by omega) (by omega), h (a + 6) (by omega) (by omega),
    h (a + 7) (by omega) (by omega)]

theorem load64_store64_other (m : Mem) (a v b : Nat) (h : b + 8 ≤ a ∨ a + 8 ≤ b) :
    load64 (store64 m a v) b = load64 m b := by
  apply load64_congr
  intro x h1 h2
  unfold store64
  rw [if_neg]; omega

theorem load64_memset_other (m : Mem) (dst c n b : Nat) (h : b + 8 ≤ dst ∨ dst + n ≤ b) :
    load64 (memset m dst c n) b = load64 m b := by
  apply load64_congr
  intro x h1 h2
  unfold memset
  rw [if_neg]; omega

/-- Two different page-aligned addresses are a whole page apart. -/
theorem page_apart (a p : Nat) (ha : a % PGSIZE = 0) (hp : p % PGSIZE = 0) (hne : a ≠ p) :
    a + PGSIZE ≤ p ∨ p + PGSIZE ≤ a := by
  unfold PGSIZE at *; omega

theorem lseg_congr (m m1 : Mem) (l : List Nat) :
    ∀ h, (∀ a ∈ l, load64 m1 a = load64 m a) → lseg m h l → lseg m1 h l := by
  induction l with
  | nil => intro h _ hl; exact hl
  | cons a t ih =>
    intro h hm hl
    obtain ⟨h1, h2, h3⟩ := hl
    refine ⟨h1, h2, ?_⟩
    rw [hm a (List.mem_cons_self a t)]
    exact ih _ (fun b hb => hm b (List.mem_cons_of_mem a hb)) h3

theorem lseg_unique (m : Mem) (l : List Nat) :
    ∀ h l1, lseg m h l → lseg m h l1 → l = l1 := by
  induction l with
  | nil =>
    intro h l1 hl hl1
    cases l1 with
    | nil => rfl
    | cons b t1 =>
      obtain ⟨h1, h2, _⟩ := hl1
      exact absurd (h1.symm.trans hl) h2.1
  | cons a t ih =>
    intro h l1 hl hl1
    obtain ⟨h1, h2, h3⟩ := hl
    cases l1 with
    | nil => exact absurd (h1.symm.trans hl1) h2.1
    | cons b t1 =>
      obtain ⟨g1, _, g3⟩ := hl1
      have hab : a = b := h1.symm.trans g1
      subst hab
      rw [ih _ t1 h3 g3]

theorem lseg_page (m : Mem) (l : List Nat) :
    ∀ h, lseg m h l → ∀ a ∈ l, IsPageAddr a := by
  induction l with
  | nil => intro h _ a ha; cases ha
  | cons b t ih =>
    intro h hl a ha
    obtain ⟨_, h2, h3⟩ := hl
    rcases List.mem_cons.mp ha with rfl | ha
    · exact h2
    · exact ih _ h3 a ha

theorem lseg_head_lt (m : Mem) (h : Nat) (l : List Nat) (hl : lseg m h l) : h < 2 ^ 64 := by
  cases l with
  | nil => have : h = 0 := hl; omega
  | cons a t => obtain ⟨h1, h2, _⟩ := hl; rw [h1]; exact h2.2.2

theorem lseg_nil_iff (m : Mem) (h : Nat) (l : List Nat) (hl : lseg m h l) : h = 0 ↔ l = [] := by
  cases l with
  | nil => exact ⟨fun _ => rfl, fun _ => hl⟩
  | cons a t =>
    obtain ⟨h1, h2, _⟩ := hl
    constructor
    · intro h0; exact absurd (h1.symm.trans h0) h2.1
    · intro hc; cases hc

/-- Memory after a page `p` is pushed in front of a chain starting at `old`. -/
theorem lseg_push_other (m : Mem) (p old h : Nat) (l : List Nat) (hp : p % PGSIZE = 0)
    (hl : lseg m h l) (hnot : p ∉ l) :
    lseg (store64 (memset m p 1 PGSIZE) p old) h l := by
  refine lseg_congr m _ l h ?_ hl
  intro a ha
  have hpa := (lseg_page m l h hl a ha).2.1
  have hne : a ≠ p := fun e => hnot (e ▸ ha)
  have := page_apart a p hpa hp hne
  rw [load64_store64_other _ _ _ _ (by unfold PGSIZE at this; omega),
    load64_memset_other _ _ _ _ _ (by unfold PGSIZE at this ⊢; omega)]

theorem lseg_push_self (m : Mem) (p old : Nat) (l : List Nat) (hp : IsPageAddr p)
    (hl : lseg m old l) (hnot : p ∉ l) :
    lseg (store64 (memset m p 1 PGSIZE) p old) p (p :: l) := by
  refine ⟨rfl, hp, ?_⟩
  rw [load64_store64_same _ _ _ (lseg_head_lt m old l hl)]
  exact lseg_push_other m p old old l hp.2.1 hl hnot

theorem lseg_pop_other (m : Mem) (r h : Nat) (l : List Nat) (hr : r % PGSIZE = 0)
    (hl : lseg m h l) (hnot : r ∉ l) :
    lseg (memset m r 5 PGSIZE) h l := by
  refine lseg_congr m _ l h ?_ hl
  intro a ha
  have hpa := (lseg_page m l h hl a ha).2.1
  have hne : a ≠ r := fun e => hnot (e ▸ ha)
  have := page_apart a r hpa hr hne
  rw [load64_memset_other _ _ _ _ _ (by unfold PGSIZE at this ⊢; omega)]

/-! ## What each procedure does to memory and list heads -/

theorem kfree_valid (L : Layout) (s : Kmem) (c p : Nat) (h : ValidAddr L p) :
    ∃ s1, kfree L s c p = Result.done s1 ∧ Pushed s c p s1 := by
  obtain ⟨h1, h2, h3⟩ := h
  have hc : ¬ (p % PGSIZE ≠ 0 ∨ p < L.kend ∨ p ≥ L.PHYSTOP) := by omega
  unfold kfree
  simp only [if_neg hc]
  exact ⟨_, rfl, rfl, rfl⟩

theorem kfree_invalid (L : Layout) (s : Kmem) (c p : Nat) (h : ¬ ValidAddr L p) :
    kfree L s c p = Result.panic s := by
  have hc : p % PGSIZE ≠ 0 ∨ p < L.kend ∨ p ≥ L.PHYSTOP := by
    unfold ValidAddr at h; omega
  simp only [kfree, if_pos hc]

theorem kfree_first_eq (L : Layout) (s : Kmem) (pa cpu_index : Nat) :
    kfree_first L s pa cpu_index = kfree L s cpu_index pa := rfl

theorem kalloc1_empty (s : Kmem) (c : Nat) (h : s.freelist c = 0) :
    (__kalloc s c).1 = 0 ∧ Unchanged s (__kalloc s c).2 := by
  simp [__kalloc, acquire, release, h, Unchanged]

theorem kalloc1_nonempty (s : Kmem) (c : Nat) (h : s.freelist c ≠ 0) :
    Popped s c (__kalloc s c).1 (__kalloc s c).2 := by
  simp [__kalloc, acquire, release, h, Popped]

theorem Popped.of_unchanged {s0 s s1 : Kmem} {j r : Nat} (hu : Unchanged s0 s)
    (hp : Popped s j r s1) : Popped s0 j r s1 := by
  obtain ⟨h1, h2, h3, h4⟩ := hp
  rw [hu.1, hu.2] at *
  exact ⟨h1, h2, h3, h4⟩

theorem Unchanged.trans {s0 s s1 : Kmem} (h1 : Unchanged s0 s) (h2 : Unchanged s s1) :
    Unchanged s0 s1 :=
  ⟨h2.1.trans h1.1, h2.2.trans h1.2⟩

theorem kalloc_loop_spec (cpu_id : Nat) :
    ∀ (n k : Nat) (s0 s : Kmem), Unchanged s0 s →
      ((kalloc_loop cpu_id n k s).1 = 0 ∧ Unchanged s0 (kalloc_loop cpu_id n k s).2 ∧
          ∀ j, k ≤ j → j < k + n → j ≠ cpu_id → s0.freelist j = 0) ∨
      (∃ j, k ≤ j ∧ j < k + n ∧ j ≠ cpu_id ∧
          (∀ i, k ≤ i → i < j → i ≠ cpu_id → s0.freelist i = 0) ∧
          Popped s0 j (kalloc_loop cpu_id n k s).1 (kalloc_loop cpu_id n k s).2) := by
  intro n
  induction n with
  | zero =>
    intro k s0 s hu
    left
    exact ⟨rfl, hu, fun j h1 h2 => by omega⟩
  | succ n ih =>
    intro k s0 s hu
    unfold kalloc_loop
    by_cases hk : k = cpu_id
    · rw [if_pos hk]
      rcases ih (k + 1) s0 s hu with ⟨h1, h2, h3⟩ | ⟨j, h1, h2, h3, h4, h5⟩
      · left
        refine ⟨h1, h2, fun j g1 g2 g3 => ?_⟩
        exact h3 j (by omega) (by omega) g3
      · right
        refine ⟨j, by omega, by omega, h3, fun i g1 g2 g3 => ?_, h5⟩
        exact h4 i (by omega) g2 g3
    · rw [if_neg hk]
      by_cases hh : s.freelist k = 0
      · have he := kalloc1_empty s k hh
        simp only [he.1, ne_eq, not_true_eq_false, if_false]
        rcases ih (k + 1) s0 _ (hu.trans he.2) with ⟨h1, h2, h3⟩ | ⟨j, h1, h2, h3, h4, h5⟩
        · left
          refine ⟨h1, h2, fun j g1 g2 g3 => ?_⟩
          by_cases hj : j = k
          · rw [hj, ← hu.2]; exact hh
          · exact h3 j (by omega) (by omega) g3
        · right
          refine ⟨j, by omega, by omega, h3, fun i g1 g2 g3 => ?_, h5⟩
          by_cases hi : i = k
          · rw [hi, ← hu.2]; exact hh
          · exact h4 i (by omega) g2 g3
      · have hp := kalloc1_nonempty s k hh
        have hne : (__kalloc s k).1 ≠ 0 := by rw [hp.1]; exact hh
        simp only [ne_eq, hne, not_false_eq_true, if_true]
        right
        exact ⟨k, le_refl k, by omega, hk, fun i g1 g2 => by omega, hp.of_unchanged hu⟩

/-- Every call of `kalloc` is one of three things: a pop from the caller's own
pool; a pop from the lowest-numbered other pool that is not empty, when the own
pool is empty; or a null result that leaves memory and heads alone, when every
pool is empty. -/
theorem kalloc_spec (L : Layout) (s : Kmem) (c : Nat) :
    (s.freelist c ≠ 0 ∧ Popped s c (kalloc L s c).1 (kalloc L s c).2) ∨
    (s.freelist c = 0 ∧ ∃ j, j < L.NCPU ∧ j ≠ c ∧
        (∀ i, i < j → i ≠ c → s.freelist i = 0) ∧
        Popped s j (kalloc L s c).1 (kalloc L s c).2) ∨
    (s.freelist c = 0 ∧ (∀ j, j < L.NCPU → j ≠ c → s.freelist j = 0) ∧
        (kalloc L s c).1 = 0 ∧ Unchanged s (kalloc L s c).2) := by
  unfold kalloc
  by_cases hh : s.freelist c = 0
  · have he := kalloc1_empty s c hh
    simp only [he.1, ne_eq, not_true_eq_false, if_false]
    right
    rcases kalloc_loop_spec c L.NCPU 0 s _ he.2 with ⟨h1, h2, h3⟩ | ⟨j, _, h2, h3, h4, h5⟩
    · right
      exact ⟨hh, fun j g1 g2 => h3 j (Nat.zero_le j) (by omega) g2, h1, h2⟩
    · left
      exact ⟨hh, j, by omega, h3, fun i g1 g2 => h4 i (Nat.zero_le i) g1 g2, h5⟩
  · have hp := kalloc1_nonempty s c hh
    have hne : (__kalloc s c).1 ≠ 0 := by rw [hp.1]; exact hh
    simp only [ne_eq, hne, not_false_eq_true, if_true]
    left
    exact ⟨hh, hp⟩

/-! ## Pops and pushes on well-formed pools -/

theorem setList_same (ls : Nat → List Nat) (c : Nat) (l : List Nat) : setList ls c l c = l := by
  simp [setList]

theorem setList_other (ls : Nat → List Nat) (c d : Nat) (l : List Nat) (h : d ≠ c) :
    setList ls c l d = ls d := by
  simp [setList, h]

theorem setHead_same (f : Nat → Nat) (c v : Nat) : setHead f c v c = v := by
  simp [setHead]

theorem setHead_other (f : Nat → Nat) (c d v : Nat) (h : d ≠ c) : setHead f c v d = f d := by
  simp [setHead, h]

theorem Pools.unique {N : Nat} {s : Kmem} {ls ls1 : Nat → List Nat} (h : Pools N s ls)
    (h1 : Pools N s ls1) (c : Nat) (hc : c < N) : ls c = ls1 c :=
  lseg_unique s.mem (ls c) (s.freelist c) (ls1 c) (h.repr c hc) (h1.repr c hc)

theorem Pools.unchanged {N : Nat} {s s1 : Kmem} {ls : Nat → List Nat} (h : Pools N s ls)
    (hu : Unchanged s s1) : Pools N s1 ls := by
  refine ⟨fun c hc => ?_, h.nodup, h.disj⟩
  have := h.repr c hc
  unfold FreeList at *
  rw [hu.1, hu.2]; exact this

theorem Pools.page_of_mem {N : Nat} {s : Kmem} {ls : Nat → List Nat} (h : Pools N s ls)
    (c : Nat) (hc : c < N) (a : Nat) (ha : a ∈ ls c) : IsPageAddr a :=
  lseg_page s.mem (ls c) (s.freelist c) (h.repr c hc) a ha

theorem Pools.pop {N : Nat} {s s1 : Kmem} {ls : Nat → List Nat} {j r : Nat}
    (h : Pools N s ls) (hj : j < N) (hpop : Popped s j r s1) :
    ∃ t, ls j = r :: t ∧ Pools N s1 (setList ls j t) := by
  obtain ⟨e1, e2, e3, e4⟩ := hpop
  have hrep := h.repr j hj
  unfold FreeList at hrep
  cases hl : ls j with
  | nil =>
    rw [hl] at hrep
    exact absurd (e1.trans hrep) e2
  | cons a t =>
    rw [hl] at hrep
    obtain ⟨g1, g2, g3⟩ := hrep
    have hra : r = a := e1.trans g1
    subst hra
    refine ⟨t, rfl, ?_⟩
    have hnd := h.nodup j hj
    rw [hl] at hnd
    have hrt : r ∉ t := (List.nodup_cons.mp hnd).1
    refine ⟨fun c hc => ?_, fun c hc => ?_, fun c d hc hd hcd a ha => ?_⟩
    · unfold FreeList
      rw [e3, e4]
      by_cases hcj : c = j
      · subst hcj
        rw [setHead_same, setList_same]
        exact lseg_pop_other s.mem r _ t g2.2.1 g3 hrt
      · rw [setHead_other _ _ _ _ hcj, setList_other _ _ _ _ hcj]
        refine lseg_pop_other s.mem r _ (ls c) g2.2.1 (h.repr c hc) ?_
        intro hmem
        exact h.disj j c hj hc (Ne.symm hcj) r (by rw [hl]; exact List.mem_cons_self r t) hmem
    · by_cases hcj : c = j
      · subst hcj
        rw [setList_same]
        exact (List.nodup_cons.mp hnd).2
      · rw [setList_other _ _ _ _ hcj]
        exact h.nodup c hc
    · have sub : ∀ e, e < N → ∀ x, x ∈ setList ls j t e → x ∈ ls e := by
        intro e he x hx
        by_cases hej : e = j
        · subst hej
          rw [setList_same] at hx
          rw [hl]; exact List.mem_cons_of_mem r hx
        · rw [setList_other _ _ _ _ hej] at hx
          exact hx
      intro hd2
      exact h.disj c d hc hd hcd a (sub c hc a ha) (sub d hd a hd2)

theorem Pools.push {N : Nat} {s s1 : Kmem} {ls : Nat → List Nat} {c p : Nat}
    (h : Pools N s ls) (hc : c < N) (hp : IsPageAddr p) (hfresh : ∀ d, d < N → p ∉ ls d)
    (hpush : Pushed s c p s1) : Pools N s1 (setList ls c (p :: ls c)) := by
  obtain ⟨e1, e2⟩ := hpush
  refine ⟨fun d hd => ?_, fun d hd => ?_, fun d e hd he hde a ha => ?_⟩
  · unfold FreeList
    rw [e1, e2]
    by_cases hdc : d = c
    · subst hdc
      rw [setHead_same, setList_same]
      exact lseg_push_self s.mem p _ (ls d) hp (h.repr d hd) (hfresh d hd)
    · rw [setHead_other _ _ _ _ hdc, setList_other _ _ _ _ hdc]
      exact lseg_push_other s.mem p _ _ (ls d) hp.2.1 (h.repr d hd) (hfresh d hd)
  · by_cases hdc : d = c
    · subst hdc
      rw [setList_same]
      exact List.nodup_cons.mpr ⟨hfresh d hd, h.nodup d hd⟩
    · rw [setList_other _ _ _ _ hdc]
      exact h.nodup d hd
  · by_cases hdc : d = c
    · subst hdc
      have hed : e ≠ d := Ne.symm hde
      rw [setList_same] at ha
      rw [setList_other _ _ _ _ hed]
      rcases List.mem_cons.mp ha with rfl | ha
      · exact hfresh e he
      · exact h.disj d e hd he hde a ha
    · rw [setList_other _ _ _ _ hdc] at ha
      by_cases hec : e = c
      · subst hec
        rw [setList_same]
        intro hmem
        rcases List.mem_cons.mp hmem with rfl | hmem
        · exact hfresh d hd ha
        · exact h.disj d e hd he hde a ha hmem
      · rw [setList_other _ _ _ _ hec]
        exact h.disj d e hd he hde a ha

/-- The pairwise form of "no address twice" is the same as having no duplicate in
the concatenation of all free lists. -/
theorem nodup_allFree (N : Nat) (ls : Nat → List Nat) :
    (allFree N ls).Nodup ↔
      (∀ c, c < N → (ls c).Nodup) ∧
        (∀ c d, c < N → d < N → c ≠ d → ∀ a, a ∈ ls c → a ∉ ls d) := by
  unfold allFree
  rw [List.nodup_flatMap]
  constructor
  · rintro ⟨h1, h2⟩
    refine ⟨fun c hc => h1 c (List.mem_range.mpr hc), ?_⟩
    intro c d hc hd hcd a ha hb
    have hp := List.pairwise_iff_getElem.mp h2
    simp only [List.length_range, List.getElem_range] at hp
    rcases Nat.lt_or_gt_of_ne hcd with hlt | hgt
    · exact (hp c d hc hd hlt) ha hb
    · exact (hp d c hd hc hgt) hb ha
  · rintro ⟨h1, h2⟩
    refine ⟨fun c hc => h1 c (List.mem_range.mp hc), ?_⟩
    refine List.pairwise_iff_getElem.mpr ?_
    intro i j hi hj hij
    simp only [List.length_range] at hi hj
    simp only [List.getElem_range]
    intro a ha hb
    exact h2 i j hi hj (by omega) a ha hb

theorem mem_allFree (N : Nat) (ls : Nat → List Nat) (a : Nat) :
    a ∈ allFree N ls ↔ ∃ c, c < N ∧ a ∈ ls c := by
  unfold allFree
  simp [List.mem_flatMap, List.mem_range]

/-! ## Initialisation -/

theorem Result.eq_done (r : Result) (h : r.isDone = true) : r = Result.done r.state := by
  cases r with
  | done s => rfl
  | panic s => cases h
  | overflow => cases h

theorem PGROUNDUP_aligned (sz : Nat) : PGROUNDUP sz % PGSIZE = 0 := by
  unfold PGROUNDUP PGSIZE; omega

theorem PGROUNDUP_lt (sz : Nat) : PGROUNDUP sz < 2 ^ 64 := by
  unfold PGROUNDUP PGSIZE; omega

theorem mem_initLists (N p0 : Nat) :
    ∀ n c a, a ∈ initLists N p0 n c ↔ ∃ k, k < n ∧ (k + 1) % N = c ∧ a = p0 + k * PGSIZE := by
  intro n
  induction n with
  | zero =>
    intro c a
    simp [initLists]
  | succ n ih =>
    intro c a
    unfold initLists
    by_cases hc : c = (n + 1) % N
    · subst hc
      rw [setList_same, List.mem_cons, ih]
      constructor
      · rintro (h | ⟨k, h1, h2, h3⟩)
        · exact ⟨n, by omega, rfl, h⟩
        · exact ⟨k, by omega, h2, h3⟩
      · rintro ⟨k, h1, h2, h3⟩
        by_cases hk : k = n
        · left; rw [h3, hk]
        · right; exact ⟨k, by omega, h2, h3⟩
    · rw [setList_other _ _ _ _ hc, ih]
      constructor
      · rintro ⟨k, h1, h2, h3⟩
        exact ⟨k, by omega, h2, h3⟩
      · rintro ⟨k, h1, h2, h3⟩
        by_cases hk : k = n
        · exfalso; apply hc; rw [← h2, hk]
        · exact ⟨k, by omega, h2, h3⟩

/-- Once the page pointer has wrapped to 0 the loop cannot return: the next call
of `kfree_first` is on the null page, which lies below `end`. -/
theorem freerange_loop_null (L : Layout) (room i : Nat) (s s1 : Kmem)
    (hP : PGSIZE ≤ L.PHYSTOP) : freerange_loop L L.PHYSTOP room 0 i s ≠ Result.done s1 := by
  have hc : (0 + PGSIZE) % 2 ^ 64 ≤ L.PHYSTOP := by unfold PGSIZE at *; omega
  cases room with
  | zero =>
    rw [freerange_loop, if_pos hc]
    simp
  | succ room =>
    have hinv : ¬ ValidAddr L 0 := by
      have := L.kend_pos
      unfold ValidAddr; omega
    rw [freerange_loop, if_pos hc, kfree_first_eq, kfree_invalid L s _ 0 hinv]
    simp

theorem freerange_loop_spec (L : Layout) (p0 : Nat) (hp0 : p0 % PGSIZE = 0) :
    ∀ (room i : Nat) (s s1 : Kmem), i + room = INT_MAX →
      p0 + i * PGSIZE < 2 ^ 64 →
      Pools L.NCPU s (initLists L.NCPU p0 i) →
      (∀ k, k < i → ValidAddr L (p0 + k * PGSIZE) ∧ p0 + k * PGSIZE + PGSIZE ≤ L.PHYSTOP) →
      freerange_loop L L.PHYSTOP room (p0 + i * PGSIZE) i s = Result.done s1 →
      ∃ n, i ≤ n ∧ n ≤ INT_MAX ∧ Pools L.NCPU s1 (initLists L.NCPU p0 n) ∧
        (∀ k, k < n → ValidAddr L (p0 + k * PGSIZE) ∧ p0 + k * PGSIZE + PGSIZE ≤ L.PHYSTOP) ∧
        L.PHYSTOP < p0 + n * PGSIZE + PGSIZE := by
  intro room
  induction room with
  | zero =>
    intro i s s1 hi hlt hpools hvalid hrun
    rw [freerange_loop] at hrun
    by_cases hc : (p0 + i * PGSIZE + PGSIZE) % 2 ^ 64 ≤ L.PHYSTOP
    · rw [if_pos hc] at hrun
      simp at hrun
    · rw [if_neg hc] at hrun
      have hs : s = s1 := by injection hrun
      subst hs
      refine ⟨i, le_refl i, by omega, hpools, hvalid, ?_⟩
      unfold PGSIZE at *; omega
  | succ room ih =>
    intro i s s1 hi hlt hpools hvalid hrun
    rw [freerange_loop] at hrun
    by_cases hc : (p0 + i * PGSIZE + PGSIZE) % 2 ^ 64 ≤ L.PHYSTOP
    · rw [if_pos hc] at hrun
      simp only [kfree_first_eq] at hrun
      by_cases hv : ValidAddr L (p0 + i * PGSIZE)
      · obtain ⟨s2, hk, hpush⟩ := kfree_valid L s ((i + 1) % L.NCPU) (p0 + i * PGSIZE) hv
        rw [hk] at hrun
        simp only at hrun
        have hpage : IsPageAddr (p0 + i * PGSIZE) := by
          have := L.kend_pos
          obtain ⟨v1, v2, v3⟩ := hv
          exact ⟨by omega, v1, hlt⟩
        have hfresh : ∀ d, d < L.NCPU → p0 + i * PGSIZE ∉ initLists L.NCPU p0 i d := by
          intro d _ hmem
          obtain ⟨k, k1, _, k3⟩ := (mem_initLists L.NCPU p0 i d _).mp hmem
          unfold PGSIZE at k3; omega
        have hpools2 : Pools L.NCPU s2 (initLists L.NCPU p0 (i + 1)) :=
          hpools.push (Nat.mod_lt _ L.NCPU_pos) hpage hfresh hpush
        by_cases hw : p0 + i * PGSIZE + PGSIZE < 2 ^ 64
        · have e : (p0 + i * PGSIZE + PGSIZE) % 2 ^ 64 = p0 + (i + 1) * PGSIZE := by
            rw [Nat.mod_eq_of_lt hw]; ring
          rw [e] at hrun hc
          have hvalid2 : ∀ k, k < i + 1 →
              ValidAddr L (p0 + k * PGSIZE) ∧ p0 + k * PGSIZE + PGSIZE ≤ L.PHYSTOP := by
            intro k hk1
            by_cases hki : k = i
            · subst hki
              exact ⟨hv, by unfold PGSIZE at *; omega⟩
            · exact hvalid k (by omega)
          obtain ⟨n, n1, n2, n3, n4, n5⟩ :=
            ih (i + 1) s2 s1 (by omega) (by unfold PGSIZE at *; omega) hpools2 hvalid2 hrun
          exact ⟨n, by omega, n2, n3, n4, n5⟩
        · exfalso
          have e : (p0 + i * PGSIZE + PGSIZE) % 2 ^ 64 = 0 := by
            unfold PGSIZE at *; omega
          rw [e] at hrun
          refine freerange_loop_null L room (i + 1) s2 s1 ?_ hrun
          obtain ⟨_, _, v3⟩ := hv
          unfold PGSIZE at *; omega
      · rw [kfree_invalid L s _ _ hv] at hrun
        simp at hrun
    · rw [if_neg hc] at hrun
      have hs : s = s1 := by injection hrun
      subst hs
      refine ⟨i, le_refl i, by unfold INT_MAX at *; omega, hpools, hvalid, ?_⟩
      unfold PGSIZE at *; omega

theorem Pools.boot (N : Nat) (mem0 : Mem) : Pools N (boot mem0) (fun _ => []) := by
  refine ⟨fun c _ => rfl, fun c _ => List.nodup_nil, fun c d _ _ _ a ha => ?_⟩
  cases ha

/-- What `kinit` leaves behind when it returns: the pools hold the lists of
`initLists` for the number `n` of whole pages between `PGROUNDUP(end)` and
`PHYSTOP`. -/
theorem kinit_spec (L : Layout) (mem0 : Mem) (s : Kmem) (h : kinit L mem0 = Result.done s) :
    ∃ n, n ≤ INT_MAX ∧ Pools L.NCPU s (initLists L.NCPU (PGROUNDUP L.kend) n) ∧
      (∀ k, k < n → ValidAddr L (PGROUNDUP L.kend + k * PGSIZE) ∧
        PGROUNDUP L.kend + k * PGSIZE + PGSIZE ≤ L.PHYSTOP) ∧
      L.PHYSTOP < PGROUNDUP L.kend + n * PGSIZE + PGSIZE := by
  unfold kinit freerange at h
  have h0 : PGROUNDUP L.kend = PGROUNDUP L.kend + 0 * PGSIZE := by simp
  rw [h0] at h
  obtain ⟨n, _, n2, n3, n4, n5⟩ :=
    freerange_loop_spec L (PGROUNDUP L.kend) (PGROUNDUP_aligned _) INT_MAX 0 (boot mem0) s
      (by simp) (by have := PGROUNDUP_lt L.kend; simpa using this) (Pools.boot _ _)
      (fun k hk => by omega) h
  exact ⟨n, n2, n3, n4, n5⟩

theorem freerange_loop_returns (L : Layout) (p0 : Nat) (hp0 : p0 % PGSIZE = 0)
    (hk : L.kend ≤ p0) (hw : p0 + PGSIZE < 2 ^ 64) (hP : L.PHYSTOP + PGSIZE < 2 ^ 64)
    (hn : L.PHYSTOP < p0 + (INT_MAX + 1) * PGSIZE) :
    ∀ (room i : Nat) (s : Kmem), i + room = INT_MAX →
      (i = 0 ∨ p0 + i * PGSIZE ≤ L.PHYSTOP) →
      (freerange_loop L L.PHYSTOP room (p0 + i * PGSIZE) i s).isDone = true := by
  intro room
  induction room with
  | zero =>
    intro i s hi hle
    rw [freerange_loop]
    have hc : ¬ (p0 + i * PGSIZE + PGSIZE) % 2 ^ 64 ≤ L.PHYSTOP := by
      unfold PGSIZE INT_MAX at *; omega
    rw [if_neg hc]; rfl
  | succ room ih =>
    intro i s hi hle
    rw [freerange_loop]
    by_cases hc : (p0 + i * PGSIZE + PGSIZE) % 2 ^ 64 ≤ L.PHYSTOP
    · rw [if_pos hc, kfree_first_eq]
      have hlt : p0 + i * PGSIZE + PGSIZE < 2 ^ 64 := by
        unfold PGSIZE at *; omega
      rw [Nat.mod_eq_of_lt hlt] at hc ⊢
      have hv : ValidAddr L (p0 + i * PGSIZE) :=
        ⟨by unfold PGSIZE at *; omega, by unfold PGSIZE at *; omega,
          by unfold PGSIZE at *; omega⟩
      obtain ⟨s2, hk2, _⟩ := kfree_valid L s ((i + 1) % L.NCPU) (p0 + i * PGSIZE) hv
      rw [hk2]
      have e : p0 + i * PGSIZE + PGSIZE = p0 + (i + 1) * PGSIZE := by ring
      simp only
      rw [e]
      exact ih (i + 1) s2 (by omega) (Or.inr (by rw [← e]; exact hc))
    · rw [if_neg hc]; rfl

/-- When it returns: `kinit` returns whenever rounding `end` up and stepping one
page past `PHYSTOP` stay below `2^64`, and the number of pages between `end` and
`PHYSTOP` fits the `int` counter. -/
theorem kinit_returns (L : Layout) (mem0 : Mem) (hk : L.kend + 2 * PGSIZE ≤ 2 ^ 64)
    (hP : L.PHYSTOP + PGSIZE < 2 ^ 64)
    (hn : L.PHYSTOP < L.kend + (INT_MAX + 1) * PGSIZE) :
    (kinit L mem0).isDone = true := by
  unfold kinit freerange
  have h0 : PGROUNDUP L.kend = PGROUNDUP L.kend + 0 * PGSIZE := by simp
  have hge : L.kend ≤ PGROUNDUP L.kend ∧ PGROUNDUP L.kend < L.kend + PGSIZE := by
    unfold PGROUNDUP PGSIZE at *; omega
  rw [h0]
  exact freerange_loop_returns L (PGROUNDUP L.kend) (PGROUNDUP_aligned _) hge.1
    (by unfold PGSIZE at *; omega) hP (by unfold PGSIZE INT_MAX at *; omega)
    INT_MAX 0 (boot mem0) (by simp) (Or.inl rfl)

/-! ## The invariant of a run -/

theorem ValidAddr.isPage {L : Layout} {a : Nat} (h : ValidAddr L a) : IsPageAddr a := by
  have h1 := L.kend_pos
  have h2 := L.PHYSTOP_lt
  obtain ⟨v1, v2, v3⟩ := h
  exact ⟨by omega, v1, by omega⟩

theorem Inv.init (L : Layout) (mem0 : Mem) (s : Kmem) (h : kinit L mem0 = Result.done s) :
    ∃ ls, Inv L { state := s, held := [] } ls := by
  obtain ⟨n, _, hp, hv, _⟩ := kinit_spec L mem0 s h
  refine ⟨_, hp, ?_, ?_, List.nodup_nil, ?_⟩
  · intro c _ a ha
    obtain ⟨k, k1, _, k3⟩ := (mem_initLists _ _ n c a).mp ha
    rw [k3]; exact (hv k k1).1
  · intro a ha; cases ha
  · intro c _ a _ hh; cases hh

theorem Inv.popped {L : Layout} {x : Run} {ls : Nat → List Nat} {j r : Nat} {s1 : Kmem}
    (h : Inv L x ls) (hj : j < L.NCPU) (hpop : Popped x.state j r s1) :
    r ∈ ls j ∧ ∃ ls1, Inv L { state := s1, held := r :: x.held } ls1 := by
  obtain ⟨t, ht, hp⟩ := h.pools.pop hj hpop
  have hr : r ∈ ls j := by rw [ht]; exact List.mem_cons_self r t
  have sub : ∀ e, e < L.NCPU → ∀ a, a ∈ setList ls j t e → a ∈ ls e ∧ a ≠ r := by
    intro e he a ha
    by_cases hej : e = j
    · subst hej
      rw [setList_same] at ha
      have hnd := h.pools.nodup e he
      rw [ht] at hnd ⊢
      refine ⟨List.mem_cons_of_mem r ha, ?_⟩
      rintro rfl
      exact (List.nodup_cons.mp hnd).1 ha
    · rw [setList_other _ _ _ _ hej] at ha
      refine ⟨ha, ?_⟩
      rintro rfl
      exact h.pools.disj e j he hj hej a ha hr
  refine ⟨hr, setList ls j t, hp, ?_, ?_, ?_, ?_⟩
  · intro c hc a ha
    exact h.validFree c hc a (sub c hc a ha).1
  · intro a ha
    rcases List.mem_cons.mp ha with rfl | ha
    · exact h.validFree j hj a hr
    · exact h.validHeld a ha
  · exact List.nodup_cons.mpr ⟨h.apart j hj r hr, h.heldNodup⟩
  · intro c hc a ha hh
    obtain ⟨h1, h2⟩ := sub c hc a ha
    rcases List.mem_cons.mp hh with e | hh
    · exact h2 e
    · exact h.apart c hc a h1 hh

theorem Inv.kalloc {L : Layout} {x : Run} {ls : Nat → List Nat} (h : Inv L x ls) (cpu : Nat)
    (hc : cpu < L.NCPU) :
    (kalloc L x.state cpu).1 ∉ x.held ∧
      ∃ ls1, Inv L { state := (kalloc L x.state cpu).2,
                     held := if (kalloc L x.state cpu).1 ≠ 0 then (kalloc L x.state cpu).1 :: x.held
                             else x.held } ls1 := by
  rcases kalloc_spec L x.state cpu with ⟨_, hp⟩ | ⟨_, j, hj, _, _, hp⟩ | ⟨_, _, h0, hu⟩
  · obtain ⟨hr, ls1, hI⟩ := h.popped hc hp
    refine ⟨h.apart cpu hc _ hr, ls1, ?_⟩
    rw [if_pos hp.2.1]; exact hI
  · obtain ⟨hr, ls1, hI⟩ := h.popped hj hp
    refine ⟨h.apart j hj _ hr, ls1, ?_⟩
    rw [if_pos hp.2.1]; exact hI
  · constructor
    · intro hh
      have := (h.validHeld _ hh).isPage.1
      exact this h0
    · refine ⟨ls, ?_⟩
      rw [if_neg (by simp [h0])]
      exact ⟨h.pools.unchanged hu, h.validFree, h.validHeld, h.heldNodup, h.apart⟩

theorem Inv.kfree {L : Layout} {x : Run} {ls : Nat → List Nat} (h : Inv L x ls) (cpu pa : Nat)
    (hc : cpu < L.NCPU) (hpa : pa ∈ x.held) :
    ∃ s1, kfree L x.state cpu pa = Result.done s1 ∧
      ∃ ls1, Inv L { state := s1, held := x.held.erase pa } ls1 := by
  have hv := h.validHeld pa hpa
  obtain ⟨s1, hk, hpush⟩ := kfree_valid L x.state cpu pa hv
  refine ⟨s1, hk, setList ls cpu (pa :: ls cpu), ?_, ?_, ?_, ?_, ?_⟩
  · exact h.pools.push hc hv.isPage (fun d hd hm => h.apart d hd pa hm hpa) hpush
  · intro c hc1 a ha
    by_cases hcc : c = cpu
    · subst hcc
      rw [setList_same] at ha
      rcases List.mem_cons.mp ha with rfl | ha
      · exact hv
      · exact h.validFree c hc1 a ha
    · rw [setList_other _ _ _ _ hcc] at ha
      exact h.validFree c hc1 a ha
  · intro a ha
    exact h.validHeld a (List.mem_of_mem_erase ha)
  · exact h.heldNodup.erase pa
  · intro c hc1 a ha hh
    have hmem := (h.heldNodup.mem_erase_iff).mp hh
    by_cases hcc : c = cpu
    · subst hcc
      rw [setList_same] at ha
      rcases List.mem_cons.mp ha with rfl | ha
      · exact hmem.1 rfl
      · exact h.apart c hc1 a ha hmem.2
    · rw [setList_other _ _ _ _ hcc] at ha
      exact h.apart c hc1 a ha hmem.2

theorem Inv.call {L : Layout} {x y : Run} {ls : Nat → List Nat} (h : Inv L x ls) (c : Call)
    (hy : x.call L c = some y) : ∃ ls1, Inv L y ls1 := by
  cases c with
  | kalloc cpu =>
    simp only [Run.call] at hy
    by_cases hc : cpu < L.NCPU
    · rw [if_pos hc] at hy
      obtain ⟨_, ls1, hI⟩ := h.kalloc cpu hc
      injection hy with hy
      rw [← hy]; exact ⟨ls1, hI⟩
    · rw [if_neg hc] at hy; cases hy
  | kfree cpu pa =>
    simp only [Run.call] at hy
    by_cases hc : cpu < L.NCPU ∧ pa ∈ x.held
    · rw [if_pos hc] at hy
      obtain ⟨s1, hk, ls1, hI⟩ := h.kfree cpu pa hc.1 hc.2
      rw [hk] at hy
      injection hy with hy
      rw [← hy]; exact ⟨ls1, hI⟩
    · rw [if_neg hc] at hy; cases hy

theorem Inv.calls {L : Layout} (cs : List Call) :
    ∀ {x y : Run} {ls : Nat → List Nat}, Inv L x ls → x.calls L cs = some y →
      ∃ ls1, Inv L y ls1 := by
  induction cs with
  | nil =>
    intro x y ls h hy
    simp only [Run.calls] at hy
    injection hy with hy
    rw [← hy]; exact ⟨ls, h⟩
  | cons c cs ih =>
    intro x y ls h hy
    simp only [Run.calls] at hy
    cases hz : x.call L c with
    | none => rw [hz] at hy; cases hy
    | some z =>
      rw [hz] at hy
      obtain ⟨ls1, h1⟩ := h.call c hz
      exact ih h1 hy

theorem Option.eq_some_getD {α : Type} (o : Option α) (d : α) (h : o.isSome = true) :
    o = some (o.getD d) := by
  cases o with
  | none => cases h
  | some a => rfl

theorem twoPages_kinit : kinit twoPages zeroMem = Result.done twoPagesInit :=
  Result.eq_done _ (by decide)

theorem sampleRun_eq :
    Run.calls twoPages { state := twoPagesInit, held := [] } sampleCalls = some sampleRun :=
  Option.eq_some_getD _ _ (by decide)

/-! ## Ownership and initialisation -/

/-- C1 (single-owner invariant): after `kinit` and any finite sequence of `kalloc`
calls and of `kfree` calls on pages that are currently held, made on arbitrary
CPUs, the pools have free lists in which no address occurs twice, no held page is
in a free list, `kalloc` on any CPU does not return a held address, and `kfree`
of a held page does not panic. -/
theorem single_owner (L : Layout) (mem0 : Mem) (s0 : Kmem)
    (hinit : kinit L mem0 = Result.done s0) (cs : List Call) (x : Run)
    (hrun : Run.calls L { state := s0, held := [] } cs = some x) :
    ∃ ls : Nat → List Nat, (∀ c, c < L.NCPU → FreeList x.state c (ls c)) ∧
      (allFree L.NCPU ls).Nodup ∧
      (∀ p, p ∈ x.held → p ∉ allFree L.NCPU ls) ∧
      (∀ cpu, cpu < L.NCPU → (kalloc L x.state cpu).1 ∉ x.held) ∧
      (∀ cpu p, cpu < L.NCPU → p ∈ x.held → (kfree L x.state cpu p).isDone = true) := by
  obtain ⟨ls0, h0⟩ := Inv.init L mem0 s0 hinit
  obtain ⟨ls, h⟩ := Inv.calls cs h0 hrun
  refine ⟨ls, h.pools.repr, ?_, ?_, ?_, ?_⟩
  · exact (nodup_allFree _ _).mpr ⟨h.pools.nodup, h.pools.disj⟩
  · intro p hp hmem
    obtain ⟨c, hc, hm⟩ := (mem_allFree _ _ _).mp hmem
    exact h.apart c hc p hm hp
  · intro cpu hc
    exact (h.kalloc cpu hc).1
  · intro cpu p hc hp
    obtain ⟨s1, hk, _⟩ := h.kfree cpu p hc hp
    rw [hk]; rfl

/-- Witness for C1: the run `sampleCalls` on the two-page configuration. -/
theorem single_owner_witness :
    kinit twoPages zeroMem = Result.done twoPagesInit ∧
    Run.calls twoPages { state := twoPagesInit, held := [] } sampleCalls = some sampleRun ∧
    ∃ ls : Nat → List Nat, (∀ c, c < twoPages.NCPU → FreeList sampleRun.state c (ls c)) ∧
      (allFree twoPages.NCPU ls).Nodup ∧
      (∀ p, p ∈ sampleRun.held → p ∉ allFree twoPages.NCPU ls) ∧
      (∀ cpu, cpu < twoPages.NCPU → (kalloc twoPages sampleRun.state cpu).1 ∉ sampleRun.held) ∧
      (∀ cpu p, cpu < twoPages.NCPU → p ∈ sampleRun.held →
        (kfree twoPages sampleRun.state cpu p).isDone = true) :=
  ⟨twoPages_kinit, sampleRun_eq,
    single_owner twoPages zeroMem twoPagesInit twoPages_kinit sampleCalls sampleRun sampleRun_eq⟩


theorem oddTop_kinit : kinit oddTop zeroMem = Result.done oddTopInit :=
  Result.eq_done _ (by decide)

/-- Counterexample to C2 as stated: with `end = 4096` and `PHYSTOP = 12289` the
call `kinit` returns with the free lists `[8192]` and `[4096]`, so the free pages
are not all the page-aligned addresses of `[end, PHYSTOP)`: 12288 is missing. -/
theorem partition_counterexample :
    kinit oddTop zeroMem = Result.done oddTopInit ∧
    FreeList oddTopInit 0 [8192] ∧ FreeList oddTopInit 1 [4096] ∧
    ¬ (∀ s, kinit oddTop zeroMem = Result.done s →
        ∃ ls : Nat → List Nat, (∀ c, c < oddTop.NCPU → FreeList s c (ls c)) ∧
          (allFree oddTop.NCPU ls).Nodup ∧
          ∀ p, p ∈ allFree oddTop.NCPU ls ↔
            (p % PGSIZE = 0 ∧ oddTop.kend ≤ p ∧ p < oddTop.PHYSTOP)) := by
  have h0 : FreeList oddTopInit 0 [8192] := by decide
  have h1 : FreeList oddTopInit 1 [4096] := by decide
  refine ⟨oddTop_kinit, h0, h1, ?_⟩
  intro h
  obtain ⟨ls, hrep, _, hmem⟩ := h oddTopInit oddTop_kinit
  have e0 : ls 0 = [8192] := lseg_unique _ _ _ _ (hrep 0 (by decide)) h0
  have e1 : ls 1 = [4096] := lseg_unique _ _ _ _ (hrep 1 (by decide)) h1
  have hin : 12288 ∈ allFree oddTop.NCPU ls := (hmem 12288).mpr (by decide)
  obtain ⟨c, hc, hm⟩ := (mem_allFree _ _ _).mp hin
  have hc2 : c < 2 := hc
  have hc01 : c = 0 ∨ c = 1 := by omega
  rcases hc01 with rfl | rfl
  · rw [e0] at hm; simp at hm
  · rw [e1] at hm; simp at hm

/-- C2 (partition, amended): whenever `kinit` returns, no address occurs twice in
the pools' free lists, and the free addresses are exactly the page-aligned
addresses `p` with `end ≤ p` whose whole page lies below `PHYSTOP`, that is
`p + 4096 ≤ PHYSTOP`. -/
theorem kinit_partition (L : Layout) (mem0 : Mem) (s : Kmem)
    (h : kinit L mem0 = Result.done s) :
    ∃ ls : Nat → List Nat, (∀ c, c < L.NCPU → FreeList s c (ls c)) ∧
      (allFree L.NCPU ls).Nodup ∧
      ∀ p, p ∈ allFree L.NCPU ls ↔ (p % PGSIZE = 0 ∧ L.kend ≤ p ∧ p + PGSIZE ≤ L.PHYSTOP) := by
  obtain ⟨n, _, hp, hv, hexit⟩ := kinit_spec L mem0 s h
  refine ⟨_, hp.repr, (nodup_allFree _ _).mpr ⟨hp.nodup, hp.disj⟩, ?_⟩
  intro p
  rw [mem_allFree]
  have hal := PGROUNDUP_aligned L.kend
  have hlt := PGROUNDUP_lt L.kend
  constructor
  · rintro ⟨c, _, hm⟩
    obtain ⟨k, k1, _, k3⟩ := (mem_initLists _ _ n c p).mp hm
    obtain ⟨⟨v1, v2, _⟩, v4⟩ := hv k k1
    rw [k3]
    exact ⟨v1, v2, v4⟩
  · rintro ⟨a1, a2, a3⟩
    have hge : PGROUNDUP L.kend ≤ p ∧ p < PGROUNDUP L.kend + n * PGSIZE := by
      have hk := L.kend_pos
      have hP := L.PHYSTOP_lt
      unfold PGROUNDUP PGSIZE at *
      omega
    refine ⟨((p - PGROUNDUP L.kend) / PGSIZE + 1) % L.NCPU, Nat.mod_lt _ L.NCPU_pos, ?_⟩
    refine (mem_initLists _ _ n _ p).mpr ⟨(p - PGROUNDUP L.kend) / PGSIZE, ?_, rfl, ?_⟩
    · unfold PGSIZE at *; omega
    · unfold PGSIZE at *; omega

/-- Witness for C2: `kinit` returns on the two-page configuration. -/
theorem kinit_partition_witness :
    kinit twoPages zeroMem = Result.done twoPagesInit ∧
    ∃ ls : Nat → List Nat, (∀ c, c < twoPages.NCPU → FreeList twoPagesInit c (ls c)) ∧
      (allFree twoPages.NCPU ls).Nodup ∧
      ∀ p, p ∈ allFree twoPages.NCPU ls ↔
        (p % PGSIZE = 0 ∧ twoPages.kend ≤ p ∧ p + PGSIZE ≤ twoPages.PHYSTOP) :=
  ⟨twoPages_kinit, kinit_partition twoPages zeroMem twoPagesInit twoPages_kinit⟩

theorem length_initLists (N p0 : Nat) (hN : 0 < N) :
    ∀ n, ∃ q r, r < N ∧ n = q * N + r ∧
      ∀ c, c < N → (initLists N p0 n c).length = q + (if 1 ≤ c ∧ c ≤ r then 1 else 0) := by
  intro n
  induction n with
  | zero =>
    refine ⟨0, 0, hN, by simp, fun c _ => ?_⟩
    have : ¬ (1 ≤ c ∧ c ≤ 0) := by omega
    rw [if_neg this]; rfl
  | succ n ih =>
    obtain ⟨q, r, hr, hn, hlen⟩ := ih
    by_cases hr1 : r + 1 < N
    · have hmod : (n + 1) % N = r + 1 := by
        rw [hn, Nat.add_assoc, Nat.mul_comm, Nat.mul_add_mod, Nat.mod_eq_of_lt hr1]
      refine ⟨q, r + 1, hr1, by omega, fun c hc => ?_⟩
      rw [initLists, hmod]
      by_cases hcr : c = r + 1
      · subst hcr
        rw [setList_same, List.length_cons, hlen _ hc]
        have a1 : ¬ (1 ≤ r + 1 ∧ r + 1 ≤ r) := by omega
        have a2 : 1 ≤ r + 1 ∧ r + 1 ≤ r + 1 := by omega
        rw [if_neg a1, if_pos a2]
      · rw [setList_other _ _ _ _ hcr, hlen _ hc]
        by_cases hcond : 1 ≤ c ∧ c ≤ r
        · rw [if_pos hcond, if_pos (by omega)]
        · rw [if_neg hcond, if_neg (by omega)]
    · have hrN : r + 1 = N := by omega
      have hmod : (n + 1) % N = 0 := by
        rw [hn, Nat.add_assoc, Nat.mul_comm, Nat.mul_add_mod, hrN, Nat.mod_self]
      refine ⟨q + 1, 0, hN, by rw [hn, Nat.add_mul]; omega, fun c hc => ?_⟩
      rw [initLists, hmod]
      by_cases hc0 : c = 0
      · subst hc0
        rw [setList_same, List.length_cons, hlen _ hc]
        simp
      · rw [setList_other _ _ _ _ hc0, hlen _ hc]
        rw [if_pos (by omega), if_neg (by omega)]

/-- C3 (balance): whenever `kinit` returns, for any number of CPUs, the lengths of
the free lists of any two pools differ by at most one. -/
theorem kinit_balance (L : Layout) (mem0 : Mem) (s : Kmem)
    (h : kinit L mem0 = Result.done s) :
    ∃ ls : Nat → List Nat, (∀ c, c < L.NCPU → FreeList s c (ls c)) ∧
      ∀ c d, c < L.NCPU → d < L.NCPU → (ls c).length ≤ (ls d).length + 1 := by
  obtain ⟨n, _, hp, _, _⟩ := kinit_spec L mem0 s h
  refine ⟨_, hp.repr, fun c d hc hd => ?_⟩
  obtain ⟨q, r, _, _, hlen⟩ := length_initLists L.NCPU (PGROUNDUP L.kend) L.NCPU_pos n
  rw [hlen c hc, hlen d hd]
  split <;> split <;> omega

/-- Witness for C3: `kinit` returns on the configuration `oddTop`. -/
theorem kinit_balance_witness :
    kinit oddTop zeroMem = Result.done oddTopInit ∧
    ∃ ls : Nat → List Nat, (∀ c, c < oddTop.NCPU → FreeList oddTopInit c (ls c)) ∧
      ∀ c d, c < oddTop.NCPU → d < oddTop.NCPU → (ls c).length ≤ (ls d).length + 1 :=
  ⟨oddTop_kinit, kinit_balance oddTop zeroMem oddTopInit oddTop_kinit⟩

/-! ## Single free lists -/

theorem lseg_mem_tail (m : Mem) (l : List Nat) :
    ∀ h a, lseg m h l → a ∈ l → ∃ suf, lseg m (load64 m a) suf ∧ suf.length < l.length := by
  induction l with
  | nil => intro h a _ ha; cases ha
  | cons b t ih =>
    intro h a hl ha
    obtain ⟨_, _, h3⟩ := hl
    rcases List.mem_cons.mp ha with rfl | ha
    · exact ⟨t, h3, by simp⟩
    · obtain ⟨suf, s1, s2⟩ := ih _ a h3 ha
      exact ⟨suf, s1, by simp; omega⟩

/-- A chain that reaches the null pointer visits no node twice. -/
theorem lseg_nodup (m : Mem) (l : List Nat) : ∀ h, lseg m h l → l.Nodup := by
  induction l with
  | nil => intro _ _; exact List.nodup_nil
  | cons a t ih =>
    intro h hl
    obtain ⟨_, _, h3⟩ := hl
    refine List.nodup_cons.mpr ⟨?_, ih _ h3⟩
    intro ha
    obtain ⟨suf, s1, s2⟩ := lseg_mem_tail m t _ a h3 ha
    have := lseg_unique m suf _ t s1 h3
    rw [this] at s2
    omega

theorem lseg_pop (m : Mem) (h r : Nat) (t : List Nat) (hl : lseg m h (r :: t)) :
    lseg (memset m r 5 PGSIZE) (load64 m r) t := by
  have hnd := lseg_nodup m _ h hl
  obtain ⟨_, h2, h3⟩ := hl
  exact lseg_pop_other m r _ t h2.2.1 h3 (List.nodup_cons.mp hnd).1

/-- A pop from pool `j` seen from the free lists: the list of pool `j` loses its
head, and every list that does not contain the popped page stays as it is. -/
theorem Popped.pop_lists {s s1 : Kmem} {j r : Nat} {l : List Nat} (hpop : Popped s j r s1)
    (hl : FreeList s j l) :
    (∃ t, l = r :: t ∧ FreeList s1 j t) ∧
    (∀ d ld, d ≠ j → FreeList s d ld → r ∉ ld → FreeList s1 d ld) := by
  obtain ⟨e1, e2, e3, e4⟩ := hpop
  unfold FreeList at hl
  cases l with
  | nil => exact absurd (e1.trans hl) e2
  | cons a t =>
    have hra : r = a := e1.trans hl.1
    subst hra
    constructor
    · refine ⟨t, rfl, ?_⟩
      unfold FreeList
      rw [e3, e4, setHead_same]
      exact lseg_pop s.mem _ r t hl
    · intro d ld hd hld hr
      unfold FreeList at hld ⊢
      rw [e3, e4, setHead_other _ _ _ _ hd]
      exact lseg_pop_other s.mem r _ ld hl.2.1.2.1 hld hr

/-- A push on pool `c` seen from the free lists: a list that does not contain the
pushed page stays as it is, and gets the page as new head if it is pool `c`'s. -/
theorem Pushed.push_lists {s s1 : Kmem} {c p : Nat} (hpush : Pushed s c p s1) (hp : IsPageAddr p) :
    (∀ l, FreeList s c l → p ∉ l → FreeList s1 c (p :: l)) ∧
    (∀ d l, d ≠ c → FreeList s d l → p ∉ l → FreeList s1 d l) := by
  obtain ⟨e1, e2⟩ := hpush
  constructor
  · intro l hl hnot
    unfold FreeList at hl ⊢
    rw [e1, e2, setHead_same]
    exact lseg_push_self s.mem p _ l hp hl hnot
  · intro d l hd hl hnot
    unfold FreeList at hl ⊢
    rw [e1, e2, setHead_other _ _ _ _ hd]
    exact lseg_push_other s.mem p _ _ l hp.2.1 hl hnot

/-- C4 (round trip): in every state, for every CPU `c` and every page-aligned
address `p` in `[end, PHYSTOP)`, `kfree(p)` on `c` returns, and `kalloc()` on `c`
right after it returns `p`. -/
theorem free_then_alloc (L : Layout) (s : Kmem) (c p : Nat) (hp : ValidAddr L p) :
    ∃ s1, kfree L s c p = Result.done s1 ∧ (kalloc L s1 c).1 = p := by
  obtain ⟨s1, hk, hpush⟩ := kfree_valid L s c p hp
  refine ⟨s1, hk, ?_⟩
  have hhead : s1.freelist c = p := by rw [hpush.2, setHead_same]
  rcases kalloc_spec L s1 c with ⟨_, hpop⟩ | ⟨h0, _⟩ | ⟨h0, _⟩
  · rw [hpop.1, hhead]
  · exact absurd (hhead.symm.trans h0) hp.isPage.1
  · exact absurd (hhead.symm.trans h0) hp.isPage.1

/-- Witness for C4: freeing page 8192 on CPU 1 of the two-page configuration. -/
theorem free_then_alloc_witness :
    ValidAddr twoPages 8192 ∧
    ∃ s1, kfree twoPages (boot zeroMem) 1 8192 = Result.done s1 ∧
      (kalloc twoPages s1 1).1 = 8192 :=
  ⟨by decide, free_then_alloc twoPages (boot zeroMem) 1 8192 (by decide)⟩

/-- When `kalloc` returns the null pointer: exactly when the head of every pool is
null. -/
theorem kalloc_eq_null (L : Layout) (s : Kmem) (c : Nat) (hc : c < L.NCPU) :
    (kalloc L s c).1 = 0 ↔ ∀ j, j < L.NCPU → s.freelist j = 0 := by
  rcases kalloc_spec L s c with ⟨h1, hpop⟩ | ⟨_, j, hj, _, _, hpop⟩ | ⟨h1, h2, h3, _⟩
  · have hne : (kalloc L s c).1 ≠ 0 := hpop.2.1
    exact ⟨fun h => absurd h hne, fun h => absurd (h c hc) h1⟩
  · have hne : (kalloc L s c).1 ≠ 0 := hpop.2.1
    exact ⟨fun h => absurd h hne, fun h => absurd (hpop.1.trans (h j hj)) hne⟩
  · refine ⟨fun _ j hj => ?_, fun _ => h3⟩
    by_cases hjc : j = c
    · rw [hjc]; exact h1
    · exact h2 j hj hjc

/-- C5 (out of memory exactly on global exhaustion): in every state and on every
CPU, `kalloc()` returns the null pointer if and only if the free list of every
pool is empty, and then memory and all list heads are as before the call. -/
theorem kalloc_null_iff (L : Layout) (s : Kmem) (c : Nat) (hc : c < L.NCPU) :
    ((kalloc L s c).1 = 0 ↔ ∀ j, j < L.NCPU → FreeList s j []) ∧
    ((kalloc L s c).1 = 0 → Unchanged s (kalloc L s c).2) := by
  rcases kalloc_spec L s c with ⟨h1, hpop⟩ | ⟨_, j, hj, _, _, hpop⟩ | ⟨h1, h2, h3, h4⟩
  · have hne : (kalloc L s c).1 ≠ 0 := hpop.2.1
    refine ⟨⟨fun h => absurd h hne, fun h => ?_⟩, fun h => absurd h hne⟩
    exact absurd (h c hc) h1
  · have hne : (kalloc L s c).1 ≠ 0 := hpop.2.1
    refine ⟨⟨fun h => absurd h hne, fun h => ?_⟩, fun h => absurd h hne⟩
    have hj0 : s.freelist j = 0 := h j hj
    exact absurd (hpop.1.trans hj0) hne
  · refine ⟨⟨fun _ j hj => ?_, fun _ => h3⟩, fun _ => h4⟩
    by_cases hjc : j = c
    · rw [hjc]; exact h1
    · exact h2 j hj hjc

/-- Witness for C5: CPU 1 of the two-page configuration. -/
theorem kalloc_null_iff_witness :
    1 < twoPages.NCPU ∧
    ((kalloc twoPages twoPagesInit 1).1 = 0 ↔ ∀ j, j < twoPages.NCPU → FreeList twoPagesInit j []) ∧
    ((kalloc twoPages twoPagesInit 1).1 = 0 →
      Unchanged twoPagesInit (kalloc twoPages twoPagesInit 1).2) :=
  ⟨by decide, kalloc_null_iff twoPages twoPagesInit 1 (by decide)⟩

/-! ## Draining the pools -/

theorem allFree_succ (N : Nat) (ls : Nat → List Nat) :
    allFree (N + 1) ls = allFree N ls ++ ls N := by
  unfold allFree
  rw [List.range_succ, List.flatMap_append]
  simp [List.flatMap]

theorem allFree_congr (N : Nat) (ls ls1 : Nat → List Nat) (h : ∀ c, c < N → ls c = ls1 c) :
    allFree N ls = allFree N ls1 := by
  induction N with
  | zero => rfl
  | succ N ih =>
    rw [allFree_succ, allFree_succ, ih (fun c hc => h c (by omega)), h N (by omega)]

theorem perm_allFree_setList (ls : Nat → List Nat) (j r : Nat) (t : List Nat)
    (hl : ls j = r :: t) :
    ∀ N, j < N → List.Perm (r :: allFree N (setList ls j t)) (allFree N ls) := by
  intro N
  induction N with
  | zero => intro h; omega
  | succ N ih =>
    intro hj
    rw [allFree_succ, allFree_succ]
    by_cases hjN : j = N
    · subst hjN
      rw [setList_same, hl,
        allFree_congr j (setList ls j t) ls (fun c hc => setList_other _ _ _ _ (by omega))]
      exact List.perm_middle.symm
    · rw [setList_other _ _ _ _ (Ne.symm hjN)]
      exact List.Perm.append_right (ls N) (ih (by omega))

theorem allFree_eq_nil (N : Nat) (ls : Nat → List Nat) (h : allFree N ls = []) (c : Nat)
    (hc : c < N) : ls c = [] := by
  apply List.eq_nil_iff_forall_not_mem.mpr
  intro a ha
  have : a ∈ allFree N ls := (mem_allFree N ls a).mpr ⟨c, hc, ha⟩
  rw [h] at this
  cases this

theorem kallocs_cons (L : Layout) (s : Kmem) (c : Nat) (cs : List Nat) :
    (kallocs L s (c :: cs)).1 = (kalloc L s c).1 :: (kallocs L (kalloc L s c).2 cs).1 ∧
    (kallocs L s (c :: cs)).2 = (kallocs L (kalloc L s c).2 cs).2 :=
  ⟨rfl, rfl⟩

theorem Pools.of_nodup {N : Nat} {s : Kmem} {ls : Nat → List Nat}
    (hrep : ∀ c, c < N → FreeList s c (ls c)) (hnd : (allFree N ls).Nodup) : Pools N s ls :=
  ⟨hrep, ((nodup_allFree N ls).mp hnd).1, ((nodup_allFree N ls).mp hnd).2⟩

theorem Pools.kallocs {L : Layout} (cpus : List Nat) :
    ∀ (s : Kmem) (ls : Nat → List Nat), Pools L.NCPU s ls →
      cpus.length = (allFree L.NCPU ls).length → (∀ c, c ∈ cpus → c < L.NCPU) →
      List.Perm (kallocs L s cpus).1 (allFree L.NCPU ls) ∧
        ∃ ls1, Pools L.NCPU (kallocs L s cpus).2 ls1 ∧ allFree L.NCPU ls1 = [] := by
  induction cpus with
  | nil =>
    intro s ls hP hlen _
    have hnil : allFree L.NCPU ls = [] := List.eq_nil_of_length_eq_zero hlen.symm
    rw [hnil]
    exact ⟨List.Perm.refl _, ls, hP, hnil⟩
  | cons c cs ih =>
    intro s ls hP hlen hcpus
    have hc : c < L.NCPU := hcpus c (List.mem_cons_self c cs)
    have hstep : ∃ j r, j < L.NCPU ∧ Popped s j r (kalloc L s c).2 ∧ r = (kalloc L s c).1 := by
      rcases kalloc_spec L s c with ⟨_, hp⟩ | ⟨_, j, hj, _, _, hp⟩ | ⟨h1, h2, _, _⟩
      · exact ⟨c, _, hc, hp, rfl⟩
      · exact ⟨j, _, hj, hp, rfl⟩
      · exfalso
        have hall : ∀ j, j < L.NCPU → ls j = [] := by
          intro j hj
          have h0 : s.freelist j = 0 := by
            by_cases hjc : j = c
            · rw [hjc]; exact h1
            · exact h2 j hj hjc
          exact (lseg_nil_iff s.mem _ (ls j) (hP.repr j hj)).mp h0
        have hnil : allFree L.NCPU ls = allFree L.NCPU (fun _ => []) :=
          allFree_congr _ _ _ hall
        have hz : allFree L.NCPU (fun _ => ([] : List Nat)) = [] := by
          unfold allFree; simp
        rw [hnil, hz] at hlen
        simp at hlen
    obtain ⟨j, r, hj, hpop, hr⟩ := hstep
    obtain ⟨t, ht, hP1⟩ := hP.pop hj hpop
    have hperm := perm_allFree_setList ls j r t ht L.NCPU hj
    have hlen1 : cs.length = (allFree L.NCPU (setList ls j t)).length := by
      have := hperm.length_eq
      simp only [List.length_cons] at this hlen
      omega
    obtain ⟨hp2, ls1, hP2, hnil⟩ :=
      ih _ _ hP1 hlen1 (fun d hd => hcpus d (List.mem_cons_of_mem c hd))
    rw [(kallocs_cons L s c cs).1, (kallocs_cons L s c cs).2, ← hr]
    exact ⟨(List.Perm.cons r hp2).trans hperm, ls1, hP2, hnil⟩

/-- C6 (exhaustion): in a state whose pools hold `N` free pages in total, no
address twice, `N` consecutive `kalloc()` calls on arbitrary CPUs return exactly
the `N` free pages (each a non-null page address), the next `kalloc()` on any CPU
returns null, and after one `kfree` of a valid page on any CPU the next
`kalloc()` on any CPU returns a page again. -/
theorem exhaustion (L : Layout) (s : Kmem) (ls : Nat → List Nat) (cpus : List Nat)
    (hP : Pools L.NCPU s ls) (hlen : cpus.length = (allFree L.NCPU ls).length)
    (hcpus : ∀ c, c ∈ cpus → c < L.NCPU) :
    List.Perm (kallocs L s cpus).1 (allFree L.NCPU ls) ∧
    (∀ r, r ∈ (kallocs L s cpus).1 → IsPageAddr r) ∧
    ∀ c, c < L.NCPU → (kalloc L (kallocs L s cpus).2 c).1 = 0 ∧
      ∀ c1 p c2, c1 < L.NCPU → c2 < L.NCPU → ValidAddr L p →
        ∃ s3, kfree L (kalloc L (kallocs L s cpus).2 c).2 c1 p = Result.done s3 ∧
          (kalloc L s3 c2).1 ≠ 0 := by
  obtain ⟨hperm, ls1, hP1, hnil⟩ := hP.kallocs cpus s ls hlen hcpus
  refine ⟨hperm, ?_, ?_⟩
  · intro r hr
    obtain ⟨c, hc, hm⟩ := (mem_allFree _ _ _).mp (hperm.subset hr)
    exact hP.page_of_mem c hc r hm
  · intro c hc
    have hempty : ∀ j, j < L.NCPU → FreeList (kallocs L s cpus).2 j [] := by
      intro j hj
      have := hP1.repr j hj
      rw [allFree_eq_nil _ _ hnil j hj] at this
      exact this
    have hnull := (kalloc_eq_null L _ c hc).mpr hempty
    refine ⟨hnull, ?_⟩
    intro c1 p c2 hc1 hc2 hp
    obtain ⟨s3, hk, hpush⟩ := kfree_valid L (kalloc L (kallocs L s cpus).2 c).2 c1 p hp
    refine ⟨s3, hk, ?_⟩
    intro h0
    have hall := (kalloc_eq_null L s3 c2 hc2).mp h0 c1 hc1
    have hhead : s3.freelist c1 = p := by rw [hpush.2, setHead_same]
    exact hp.isPage.1 (hhead.symm.trans hall)

/-- Witness for C6: the two free pages of the two-page configuration, both
allocated on CPU 1. -/
theorem exhaustion_witness :
    Pools twoPages.NCPU twoPagesInit (initLists 2 4096 2) ∧
    [1, 1].length = (allFree twoPages.NCPU (initLists 2 4096 2)).length ∧
    (∀ c, c ∈ [1, 1] → c < twoPages.NCPU) ∧
    List.Perm (kallocs twoPages twoPagesInit [1, 1]).1
      (allFree twoPages.NCPU (initLists 2 4096 2)) ∧
    (∀ r, r ∈ (kallocs twoPages twoPagesInit [1, 1]).1 → IsPageAddr r) ∧
    ∀ c, c < twoPages.NCPU → (kalloc twoPages (kallocs twoPages twoPagesInit [1, 1]).2 c).1 = 0 ∧
      ∀ c1 p c2, c1 < twoPages.NCPU → c2 < twoPages.NCPU → ValidAddr twoPages p →
        ∃ s3, kfree twoPages (kalloc twoPages (kallocs twoPages twoPagesInit [1, 1]).2 c).2 c1 p
            = Result.done s3 ∧
          (kalloc twoPages s3 c2).1 ≠ 0 :=
  have hP : Pools twoPages.NCPU twoPagesInit (initLists 2 4096 2) :=
    Pools.of_nodup (by decide) (by decide)
  ⟨hP, by decide, by decide,
    exhaustion twoPages twoPagesInit (initLists 2 4096 2) [1, 1] hP (by decide) (by decide)⟩

/-! ## Stealing, the fatal path, and the frame of `kfree` and `kalloc` -/

theorem threeCpus_kinit : kinit threeCpus zeroMem = Result.done threeCpusInit :=
  Result.eq_done _ (by decide)

/-- Counterexample to C7 as stated: with three CPUs, after `kinit` on the pages
4096 and 8192, pool 0 is empty and pools 1 and 2 hold one page each.  For A = 0
and B = 2 the call `kalloc()` on CPU 0 returns page 4096 from pool 1: the page was
not in B's free list `[8192]`, and B's free list is still `[8192]`. -/
theorem steal_counterexample :
    kinit threeCpus zeroMem = Result.done threeCpusInit ∧
    FreeList threeCpusInit 0 [] ∧ FreeList threeCpusInit 1 [4096] ∧
    FreeList threeCpusInit 2 [8192] ∧
    (kalloc threeCpus threeCpusInit 0).1 = 4096 ∧
    (kalloc threeCpus threeCpusInit 0).1 ∉ [8192] ∧
    FreeList (kalloc threeCpus threeCpusInit 0).2 2 [8192] := by
  refine ⟨threeCpus_kinit, ?_, ?_, ?_, ?_, ?_, ?_⟩ <;> decide

/-- C7 (stealing, amended): if the pool of CPU `A` is empty, the pool of another
CPU `B` is not, and every pool with a lower index than `B`, other than `A`, is
empty, then `kalloc()` on `A` returns the head of `B`'s free list, `B`'s free list
becomes its tail (one element shorter), and `A`'s free list is still empty. -/
theorem steal (L : Layout) (s : Kmem) (A B : Nat) (lB : List Nat) (hB : B < L.NCPU)
    (hAB : A ≠ B) (hA : FreeList s A []) (hlB : FreeList s B lB) (hne : lB ≠ [])
    (hfirst : ∀ i, i < B → i ≠ A → FreeList s i []) :
    (kalloc L s A).1 ∈ lB ∧
    (∃ t, lB = (kalloc L s A).1 :: t ∧ FreeList (kalloc L s A).2 B t) ∧
    FreeList (kalloc L s A).2 A [] := by
  have hBne : s.freelist B ≠ 0 := fun h0 => hne ((lseg_nil_iff s.mem _ lB hlB).mp h0)
  have key : Popped s B (kalloc L s A).1 (kalloc L s A).2 := by
    rcases kalloc_spec L s A with ⟨h1, _⟩ | ⟨_, j, hj, hjA, hlow, hpop⟩ | ⟨_, h2, _, _⟩
    · exact absurd hA h1
    · have hjne : s.freelist j ≠ 0 := by rw [← hpop.1]; exact hpop.2.1
      have hjB : j = B := by
        rcases Nat.lt_trichotomy j B with hlt | heq | hgt
        · exact absurd (hfirst j hlt hjA) hjne
        · exact heq
        · exact absurd (hlow B hgt (Ne.symm hAB)) hBne
      rw [← hjB]; exact hpop
    · exact absurd (h2 B hB (Ne.symm hAB)) hBne
  obtain ⟨⟨t, ht, hBt⟩, _⟩ := key.pop_lists hlB
  refine ⟨by rw [ht]; exact List.mem_cons_self _ t, ⟨t, ht, hBt⟩, ?_⟩
  have h0 : s.freelist A = 0 := hA
  show (kalloc L s A).2.freelist A = 0
  rw [key.2.2.2, setHead_other _ _ _ _ hAB]
  exact h0

/-- Witness for C7: CPU 0 of the three-CPU configuration steals from pool 1. -/
theorem steal_witness :
    1 < threeCpus.NCPU ∧ 0 ≠ 1 ∧ FreeList threeCpusInit 0 [] ∧ FreeList threeCpusInit 1 [4096] ∧
    [4096] ≠ [] ∧ (∀ i, i < 1 → i ≠ 0 → FreeList threeCpusInit i []) ∧
    (kalloc threeCpus threeCpusInit 0).1 ∈ [4096] ∧
    (∃ t, [4096] = (kalloc threeCpus threeCpusInit 0).1 :: t ∧
      FreeList (kalloc threeCpus threeCpusInit 0).2 1 t) ∧
    FreeList (kalloc threeCpus threeCpusInit 0).2 0 [] :=
  ⟨by decide, by decide, by decide, by decide, by decide, by decide,
    steal threeCpus threeCpusInit 0 1 [4096] (by decide) (by decide) (by decide) (by decide)
      (by decide) (by decide)⟩

/-- C8 (fatal path of free): in every state, on every CPU and for every address
`pa`, `kfree(pa)` ends in `panic` if and only if `pa` is not a multiple of 4096, or
`pa < end`, or `pa >= PHYSTOP`; and the state in which it panics is the state
before the call, so every free list and every byte of memory is as before. -/
theorem kfree_panic_iff (L : Layout) (s : Kmem) (c pa : Nat) :
    ((∃ s1, kfree L s c pa = Result.panic s1) ↔
      (pa % PGSIZE ≠ 0 ∨ pa < L.kend ∨ pa ≥ L.PHYSTOP)) ∧
    (∀ s1, kfree L s c pa = Result.panic s1 → s1 = s) := by
  by_cases hv : ValidAddr L pa
  · obtain ⟨s2, hk, _⟩ := kfree_valid L s c pa hv
    rw [hk]
    refine ⟨⟨?_, ?_⟩, ?_⟩
    · rintro ⟨s1, h⟩; cases h
    · intro h; unfold ValidAddr at hv; omega
    · intro s1 h; cases h
  · rw [kfree_invalid L s c pa hv]
    refine ⟨⟨fun _ => ?_, fun _ => ⟨s, rfl⟩⟩, ?_⟩
    · unfold ValidAddr at hv; omega
    · intro s1 h; injection h with h; exact h.symm

theorem twoPages_doubleFree : kfree twoPages twoPagesInit 0 4096 = Result.done doubleFreed :=
  Result.eq_done _ (by decide)

/-- Counterexample to C9 as stated: right after `kinit` on the two-page
configuration page 4096 is the free list of pool 1.  `kfree(4096)` on CPU 0 is
accepted (the address is aligned and in range), and afterwards the free list of
the other pool, pool 1, is no longer `[4096]` but `[4096, 8192]`: the `next`
pointer stored in page 4096 was overwritten. -/
theorem free_frame_counterexample :
    ValidAddr twoPages 4096 ∧
    FreeList twoPagesInit 0 [8192] ∧ FreeList twoPagesInit 1 [4096] ∧
    kfree twoPages twoPagesInit 0 4096 = Result.done doubleFreed ∧
    FreeList doubleFreed 0 [4096, 8192] ∧
    FreeList doubleFreed 1 [4096, 8192] ∧ ¬ FreeList doubleFreed 1 [4096] := by
  refine ⟨?_, ?_, ?_, twoPages_doubleFree, ?_, ?_, ?_⟩ <;> decide

/-- C9 (free goes to the caller's pool only, amended): in every state, for every
CPU `c` and every page-aligned address `p` in `[end, PHYSTOP)`, `kfree(p)` on `c`
returns; a free list of pool `c` that does not already contain `p` becomes `p`
followed by its previous contents, and a free list of any other pool that does
not contain `p` is unchanged. -/
theorem free_frame (L : Layout) (s : Kmem) (c p : Nat) (hp : ValidAddr L p) :
    ∃ s1, kfree L s c p = Result.done s1 ∧
      (∀ l, FreeList s c l → p ∉ l → FreeList s1 c (p :: l)) ∧
      (∀ d l, d ≠ c → FreeList s d l → p ∉ l → FreeList s1 d l) := by
  obtain ⟨s1, hk, hpush⟩ := kfree_valid L s c p hp
  exact ⟨s1, hk, hpush.push_lists hp.isPage⟩

/-- Witness for C9: page 8192 is a valid address of the two-page configuration. -/
theorem free_frame_witness :
    ValidAddr twoPages 8192 ∧
    ∃ s1, kfree twoPages (boot zeroMem) 0 8192 = Result.done s1 ∧
      (∀ l, FreeList (boot zeroMem) 0 l → 8192 ∉ l → FreeList s1 0 (8192 :: l)) ∧
      (∀ d l, d ≠ 0 → FreeList (boot zeroMem) d l → 8192 ∉ l → FreeList s1 d l) :=
  ⟨by decide, free_frame twoPages (boot zeroMem) 0 8192 (by decide)⟩

/-- Counterexample to C10 as stated: in the state reached from `kinit` on the
two-page configuration by `kfree(4096)` on CPU 0, pools 0 and 1 both have the free
list `[4096, 8192]`.  `kalloc()` on CPU 0 takes the fast path and returns 4096,
and pool 0 becomes `[8192]`, but the free list of pool 1 changes as well: page
4096 is filled with the byte 5, so pool 1 no longer has the list `[4096, 8192]`. -/
theorem fast_path_counterexample :
    FreeList doubleFreed 0 [4096, 8192] ∧ FreeList doubleFreed 1 [4096, 8192] ∧
    (kalloc twoPages doubleFreed 0).1 = 4096 ∧
    FreeList (kalloc twoPages doubleFreed 0).2 0 [8192] ∧
    ¬ FreeList (kalloc twoPages doubleFreed 0).2 1 [4096, 8192] := by
  refine ⟨?_, ?_, ?_, ?_, ?_⟩ <;> decide

/-- C10 (fast path, amended): in every state and on every CPU `c` whose own free
list `l` is not empty, `kalloc()` returns the head of `l`, the free list of pool
`c` becomes the tail of `l`, and the free list of any other pool is unchanged
provided the returned page does not occur in it. -/
theorem fast_path (L : Layout) (s : Kmem) (c : Nat) (l : List Nat) (hl : FreeList s c l)
    (hne : l ≠ []) :
    ∃ t, l = (kalloc L s c).1 :: t ∧ FreeList (kalloc L s c).2 c t ∧
      ∀ d ld, d ≠ c → FreeList s d ld → (kalloc L s c).1 ∉ ld →
        FreeList (kalloc L s c).2 d ld := by
  have hcne : s.freelist c ≠ 0 := fun h0 => hne ((lseg_nil_iff s.mem _ l hl).mp h0)
  rcases kalloc_spec L s c with ⟨_, hpop⟩ | ⟨h0, _⟩ | ⟨h0, _⟩
  · obtain ⟨⟨t, ht, hct⟩, hother⟩ := hpop.pop_lists hl
    exact ⟨t, ht, hct, hother⟩
  · exact absurd h0 hcne
  · exact absurd h0 hcne

/-- Witness for C10: CPU 1 of the two-page configuration right after `kinit`. -/
theorem fast_path_witness :
    FreeList twoPagesInit 1 [4096] ∧ [4096] ≠ [] ∧
    ∃ t, [4096] = (kalloc twoPages twoPagesInit 1).1 :: t ∧
      FreeList (kalloc twoPages twoPagesInit 1).2 1 t ∧
      ∀ d ld, d ≠ 1 → FreeList twoPagesInit d ld → (kalloc twoPages twoPagesInit 1).1 ∉ ld →
        FreeList (kalloc twoPages twoPagesInit 1).2 d ld :=
  ⟨by decide, by decide, fast_path twoPages twoPagesInit 1 [4096] (by decide) (by decide)⟩

/-! ## Page contents after `kalloc` and `kfree` -/

/-- C11 (allocation poisoning): in every state and on every CPU, when `kalloc()`
returns a page `p` (a non-null pointer), each of the 4096 bytes of `p` reads as
the byte 5 in the state right after the call. -/
theorem alloc_poison (L : Layout) (s : Kmem) (c x : Nat) (hr : (kalloc L s c).1 ≠ 0)
    (h1 : (kalloc L s c).1 ≤ x) (h2 : x < (kalloc L s c).1 + PGSIZE) :
    (kalloc L s c).2.mem x = 5 := by
  have key : ∀ j, Popped s j (kalloc L s c).1 (kalloc L s c).2 →
      (kalloc L s c).2.mem x = 5 := by
    intro j hpop
    rw [hpop.2.2.1]
    unfold memset
    rw [if_pos ⟨h1, h2⟩]
  rcases kalloc_spec L s c with ⟨_, hpop⟩ | ⟨_, j, _, _, _, hpop⟩ | ⟨_, _, h0, _⟩
  · exact key c hpop
  · exact key j hpop
  · exact absurd h0 hr

/-- Witness for C11: CPU 1 of the two-page configuration gets page 4096; the byte
at offset 100 of that page. -/
theorem alloc_poison_witness :
    (kalloc twoPages twoPagesInit 1).1 ≠ 0 ∧ (kalloc twoPages twoPagesInit 1).1 ≤ 4196 ∧
    4196 < (kalloc twoPages twoPagesInit 1).1 + PGSIZE ∧
    (kalloc twoPages twoPagesInit 1).2.mem 4196 = 5 :=
  ⟨by decide, by decide, by decide,
    alloc_poison twoPages twoPagesInit 1 4196 (by decide) (by decide) (by decide)⟩

theorem twoPages_freedAgain : kfree twoPages afterAlloc 1 8192 = Result.done freedAgain :=
  Result.eq_done _ (by decide)

/-- Counterexample to C12 as stated: on the two-page configuration CPU 0 allocates
page 8192 and CPU 1 frees it again.  Right after that `kfree(8192)` the first
bytes of the page do not read 1: they hold the `next` pointer 4096 (the previous
head of pool 1), so byte 8192 reads 0 and byte 8193 reads 16. -/
theorem free_poison_counterexample :
    (kalloc twoPages twoPagesInit 0).1 = 8192 ∧ ValidAddr twoPages 8192 ∧
    kfree twoPages afterAlloc 1 8192 = Result.done freedAgain ∧
    freedAgain.mem 8192 = 0 ∧ freedAgain.mem 8193 = 16 ∧
    load64 freedAgain.mem 8192 = 4096 ∧ freedAgain.mem 8192 ≠ 1 := by
  refine ⟨?_, ?_, twoPages_freedAgain, ?_, ?_, ?_, ?_⟩ <;> decide

/-- C12 (free poisoning, amended): in every state, on every CPU `c` and for every
page-aligned address `p` in `[end, PHYSTOP)`, `kfree(p)` returns, and right after
it every byte of page `p` from offset 8 on reads as the byte 1, while the first
eight bytes hold, low byte first, the pointer that was the head of pool `c`
before the call. -/
theorem free_poison (L : Layout) (s : Kmem) (c p : Nat) (hp : ValidAddr L p) :
    ∃ s1, kfree L s c p = Result.done s1 ∧
      (∀ x, p + 8 ≤ x → x < p + PGSIZE → s1.mem x = 1) ∧
      (∀ x, p ≤ x → x < p + 8 → s1.mem x = s.freelist c / 256 ^ (x - p) % 256) := by
  obtain ⟨s1, hk, hpush⟩ := kfree_valid L s c p hp
  refine ⟨s1, hk, ?_, ?_⟩
  · intro x h1 h2
    rw [hpush.1]
    unfold store64 memset
    rw [if_neg (by omega), if_pos ⟨by omega, h2⟩]
  · intro x h1 h2
    rw [hpush.1]
    unfold store64
    rw [if_pos ⟨h1, h2⟩]

/-- Witness for C12: freeing page 8192 on CPU 1 of the two-page configuration. -/
theorem free_poison_witness :
    ValidAddr twoPages 8192 ∧
    ∃ s1, kfree twoPages afterAlloc 1 8192 = Result.done s1 ∧
      (∀ x, 8192 + 8 ≤ x → x < 8192 + PGSIZE → s1.mem x = 1) ∧
      (∀ x, 8192 ≤ x → x < 8192 + 8 →
        s1.mem x = afterAlloc.freelist 1 / 256 ^ (x - 8192) % 256) :=
  ⟨by decide, free_poison twoPages afterAlloc 1 8192 (by decide)⟩

/-! ## Which page goes to which pool -/

/-- Counterexample to C13 as stated: on the two-page configuration the page with
index 0 is 4096, and `0 mod 2 = 0`, but after `kinit` page 4096 is in pool 1 and
the free list of pool 0 is `[8192]`. -/
theorem round_robin_counterexample :
    kinit twoPages zeroMem = Result.done twoPagesInit ∧
    PGROUNDUP twoPages.kend + 0 * PGSIZE = 4096 ∧ 0 % twoPages.NCPU = 0 ∧
    FreeList twoPagesInit 0 [8192] ∧ FreeList twoPagesInit 1 [4096] ∧ 4096 ∉ [8192] := by
  refine ⟨twoPages_kinit, ?_, ?_, ?_, ?_, ?_⟩ <;> decide

/-- C13 (round-robin assignment, amended): whenever `kinit` returns, the page with
index `k` (counted from 0 in increasing address order, address
`PGROUNDUP(end) + k * 4096`, lying wholly below `PHYSTOP`) is in the free list of
pool `(k + 1) mod NCPU` and of no other pool: the counter is incremented before it
is used. -/
theorem round_robin (L : Layout) (mem0 : Mem) (s : Kmem)
    (h : kinit L mem0 = Result.done s) :
    ∃ ls : Nat → List Nat, (∀ c, c < L.NCPU → FreeList s c (ls c)) ∧
      ∀ k, PGROUNDUP L.kend + k * PGSIZE + PGSIZE ≤ L.PHYSTOP →
        ∀ c, c < L.NCPU → (PGROUNDUP L.kend + k * PGSIZE ∈ ls c ↔ c = (k + 1) % L.NCPU) := by
  obtain ⟨n, _, hp, _, hexit⟩ := kinit_spec L mem0 s h
  refine ⟨_, hp.repr, ?_⟩
  intro k hk c _
  have hkn : k < n := by unfold PGSIZE at *; omega
  rw [mem_initLists]
  constructor
  · rintro ⟨k1, _, h2, h3⟩
    have : k1 = k := by unfold PGSIZE at h3; omega
    rw [← h2, this]
  · intro hc
    exact ⟨k, hkn, hc.symm, rfl⟩

/-- Witness for C13: `kinit` returns on the two-page configuration. -/
theorem round_robin_witness :
    kinit twoPages zeroMem = Result.done twoPagesInit ∧
    ∃ ls : Nat → List Nat, (∀ c, c < twoPages.NCPU → FreeList twoPagesInit c (ls c)) ∧
      ∀ k, PGROUNDUP twoPages.kend + k * PGSIZE + PGSIZE ≤ twoPages.PHYSTOP →
        ∀ c, c < twoPages.NCPU →
          (PGROUNDUP twoPages.kend + k * PGSIZE ∈ ls c ↔ c = (k + 1) % twoPages.NCPU) :=
  ⟨twoPages_kinit, round_robin twoPages zeroMem twoPagesInit twoPages_kinit⟩

/-- C17 (non-empty pools after init): whenever `kinit` returns on a range that
holds at least `NCPU` whole pages, counted from `PGROUNDUP(end)` and each lying
wholly below `PHYSTOP`, the free list of every pool is non-empty. -/
theorem init_nonempty (L : Layout) (mem0 : Mem) (s : Kmem)
    (h : kinit L mem0 = Result.done s)
    (hpages : PGROUNDUP L.kend + L.NCPU * PGSIZE ≤ L.PHYSTOP) :
    ∃ ls : Nat → List Nat, (∀ c, c < L.NCPU → FreeList s c (ls c)) ∧
      ∀ c, c < L.NCPU → ls c ≠ [] := by
  obtain ⟨n, _, hp, _, hexit⟩ := kinit_spec L mem0 s h
  refine ⟨_, hp.repr, ?_⟩
  intro c hc
  have hNn : L.NCPU ≤ n := by unfold PGSIZE at *; omega
  have hmem : ∃ k, k < n ∧ (k + 1) % L.NCPU = c := by
    by_cases hc0 : c = 0
    · refine ⟨L.NCPU - 1, by have := L.NCPU_pos; omega, ?_⟩
      have e : L.NCPU - 1 + 1 = L.NCPU := by have := L.NCPU_pos; omega
      rw [e, Nat.mod_self, hc0]
    · refine ⟨c - 1, by omega, ?_⟩
      have e : c - 1 + 1 = c := by omega
      rw [e, Nat.mod_eq_of_lt hc]
  obtain ⟨k, hk, hkc⟩ := hmem
  have hin : PGROUNDUP L.kend + k * PGSIZE ∈ initLists L.NCPU (PGROUNDUP L.kend) n c :=
    (mem_initLists _ _ n c _).mpr ⟨k, hk, hkc, rfl⟩
  exact List.ne_nil_of_mem hin

/-- Witness for C17: two CPUs and two whole pages. -/
theorem init_nonempty_witness :
    kinit twoPages zeroMem = Result.done twoPagesInit ∧
    PGROUNDUP twoPages.kend + twoPages.NCPU * PGSIZE ≤ twoPages.PHYSTOP ∧
    ∃ ls : Nat → List Nat, (∀ c, c < twoPages.NCPU → FreeList twoPagesInit c (ls c)) ∧
      ∀ c, c < twoPages.NCPU → ls c ≠ [] :=
  ⟨twoPages_kinit, by decide,
    init_nonempty twoPages zeroMem twoPagesInit twoPages_kinit (by decide)⟩

/-! ## Addresses handed out -/

/-- Counterexample to C14 as stated: on the two-page configuration, `kinit` is
followed by `kfree(4096)` on CPU 0, which does not panic although page 4096 is
still free in pool 1.  Then `kalloc()` on CPU 0 returns 4096 and fills the page
with the byte 5, so the free list of pool 1, whose head is still 4096, continues
with the pointer `0x0505050505050505` read from that page.  The next `kalloc()`,
on CPU 1, returns 4096 again and makes that pointer the head of pool 1: the head
`kmem[1].freelist` is then a non-null address that is not a multiple of 4096 and
not below `PHYSTOP`.  Every load in these three calls is from page 4096. -/
theorem valid_addresses_counterexample :
    kinit twoPages zeroMem = Result.done twoPagesInit ∧
    ValidAddr twoPages 4096 ∧
    kfree twoPages twoPagesInit 0 4096 = Result.done doubleFreed ∧
    (kalloc twoPages doubleFreed 0).1 = 4096 ∧
    reusedOnce.freelist 1 = 4096 ∧
    load64 reusedOnce.mem (reusedOnce.freelist 1) = 0x0505050505050505 ∧
    (kalloc twoPages reusedOnce 1).1 = 4096 ∧
    reusedTwice.freelist 1 = 0x0505050505050505 ∧
    reusedTwice.freelist 1 ≠ 0 ∧
    reusedTwice.freelist 1 % PGSIZE ≠ 0 ∧
    ¬ reusedTwice.freelist 1 < twoPages.PHYSTOP ∧
    ¬ ValidAddr twoPages (reusedTwice.freelist 1) := by
  refine ⟨twoPages_kinit, ?_, twoPages_doubleFree, ?_, ?_, ?_, ?_, ?_, ?_, ?_, ?_, ?_⟩ <;> decide

/-- C14 (returned addresses are well-formed, amended): after `kinit` and any
finite sequence of `kalloc` calls and of `kfree` calls on pages that are currently
held, every address in every pool's free list, and every non-null pointer that
`kalloc` returns next, is a multiple of 4096 in `[end, PHYSTOP)`. -/
theorem valid_addresses (L : Layout) (mem0 : Mem) (s0 : Kmem)
    (hinit : kinit L mem0 = Result.done s0) (cs : List Call) (x : Run)
    (hrun : Run.calls L { state := s0, held := [] } cs = some x) :
    ∃ ls : Nat → List Nat, (∀ c, c < L.NCPU → FreeList x.state c (ls c)) ∧
      (∀ c, c < L.NCPU → ∀ a, a ∈ ls c → ValidAddr L a) ∧
      (∀ cpu, cpu < L.NCPU → (kalloc L x.state cpu).1 ≠ 0 →
        ValidAddr L (kalloc L x.state cpu).1) := by
  obtain ⟨ls0, h0⟩ := Inv.init L mem0 s0 hinit
  obtain ⟨ls, h⟩ := Inv.calls cs h0 hrun
  refine ⟨ls, h.pools.repr, h.validFree, ?_⟩
  intro cpu hc hne
  rcases kalloc_spec L x.state cpu with ⟨_, hp⟩ | ⟨_, j, hj, _, _, hp⟩ | ⟨_, _, hz, _⟩
  · exact h.validFree cpu hc _ (h.popped hc hp).1
  · exact h.validFree j hj _ (h.popped hj hp).1
  · exact absurd hz hne

/-- Witness for C14: the run `sampleCalls` on the two-page configuration. -/
theorem valid_addresses_witness :
    kinit twoPages zeroMem = Result.done twoPagesInit ∧
    Run.calls twoPages { state := twoPagesInit, held := [] } sampleCalls = some sampleRun ∧
    ∃ ls : Nat → List Nat, (∀ c, c < twoPages.NCPU → FreeList sampleRun.state c (ls c)) ∧
      (∀ c, c < twoPages.NCPU → ∀ a, a ∈ ls c → ValidAddr twoPages a) ∧
      (∀ cpu, cpu < twoPages.NCPU → (kalloc twoPages sampleRun.state cpu).1 ≠ 0 →
        ValidAddr twoPages (kalloc twoPages sampleRun.state cpu).1) :=
  ⟨twoPages_kinit, sampleRun_eq,
    valid_addresses twoPages zeroMem twoPagesInit twoPages_kinit sampleCalls sampleRun
      sampleRun_eq⟩

/-! ## Lock events of a call -/

theorem Paired.discipline : ∀ (n : Nat) (evs : List LockEvent), evs.length ≤ n →
    Paired evs → (∀ k, (holds [] (evs.take k)).length ≤ 1) ∧ holds [] evs = [] := by
  intro n
  induction n with
  | zero =>
    intro evs hlen _
    have : evs = [] := List.eq_nil_of_length_eq_zero (by omega)
    subst this
    exact ⟨fun k => by simp [holds], rfl⟩
  | succ n ih =>
    intro evs hlen hp
    match evs, hp with
    | [], _ => exact ⟨fun k => by simp [holds], rfl⟩
    | LockEvent.acquire i :: LockEvent.release j :: es, hp =>
      obtain ⟨hij, hes⟩ := hp
      subst hij
      have hlen2 : es.length ≤ n := by simp at hlen; omega
      obtain ⟨h1, h2⟩ := ih es hlen2 hes
      constructor
      · intro k
        match k with
        | 0 => simp [holds]
        | 1 => simp [holds]
        | k + 2 =>
          simp only [List.take_succ_cons, holds, List.erase_cons_head]
          exact h1 k
      · simp only [holds, List.erase_cons_head]
        exact h2

theorem OneLockAtATime.of_paired {evs : List LockEvent} (h : Paired evs) :
    OneLockAtATime evs :=
  ⟨h, (Paired.discipline evs.length evs (le_refl _) h).1,
    (Paired.discipline evs.length evs (le_refl _) h).2⟩

theorem Paired.append {es1 : List LockEvent} :
    ∀ (n : Nat) (es : List LockEvent), es.length ≤ n → Paired es → Paired es1 →
      Paired (es ++ es1) := by
  intro n
  induction n with
  | zero =>
    intro es hlen _ h1
    have : es = [] := List.eq_nil_of_length_eq_zero (by omega)
    subst this
    exact h1
  | succ n ih =>
    intro es hlen hp h1
    match es, hp with
    | [], _ => exact h1
    | LockEvent.acquire i :: LockEvent.release j :: es, hp =>
      exact ⟨hp.1, ih es (by simp at hlen; omega) hp.2 h1⟩

theorem kalloc1_locks (s : Kmem) (c : Nat) :
    (__kalloc s c).2.locks = s.locks ++ [LockEvent.acquire c, LockEvent.release c] := by
  by_cases h : s.freelist c = 0 <;> simp [__kalloc, acquire, release, h]

theorem kalloc_loop_locks (cpu_id : Nat) :
    ∀ (n k : Nat) (s : Kmem),
      ∃ evs, (kalloc_loop cpu_id n k s).2.locks = s.locks ++ evs ∧ Paired evs := by
  intro n
  induction n with
  | zero =>
    intro k s
    exact ⟨[], by simp [kalloc_loop], trivial⟩
  | succ n ih =>
    intro k s
    rw [kalloc_loop]
    by_cases hk : k = cpu_id
    · rw [if_pos hk]
      exact ih (k + 1) s
    · rw [if_neg hk]
      have hpair : Paired [LockEvent.acquire k, LockEvent.release k] := ⟨rfl, trivial⟩
      by_cases hr : (__kalloc s k).1 ≠ 0
      · rw [if_pos hr]
        exact ⟨_, kalloc1_locks s k, hpair⟩
      · rw [if_neg hr]
        obtain ⟨evs, h1, h2⟩ := ih (k + 1) (__kalloc s k).2
        refine ⟨[LockEvent.acquire k, LockEvent.release k] ++ evs, ?_, ?_⟩
        · rw [h1, kalloc1_locks, List.append_assoc]
        · exact Paired.append 2 _ (le_refl _) hpair h2

theorem kalloc_locks (L : Layout) (s : Kmem) (c : Nat) :
    ∃ evs, (kalloc L s c).2.locks = s.locks ++ evs ∧ Paired evs := by
  unfold kalloc
  have hpair : Paired [LockEvent.acquire c, LockEvent.release c] := ⟨rfl, trivial⟩
  by_cases hr : (__kalloc s c).1 ≠ 0
  · rw [if_pos hr]
    exact ⟨_, kalloc1_locks s c, hpair⟩
  · rw [if_neg hr]
    obtain ⟨evs, h1, h2⟩ := kalloc_loop_locks c L.NCPU 0 (__kalloc s c).2
    refine ⟨[LockEvent.acquire c, LockEvent.release c] ++ evs, ?_, ?_⟩
    · rw [h1, kalloc1_locks, List.append_assoc]
    · exact Paired.append 2 _ (le_refl _) hpair h2

theorem kfree_locks (L : Layout) (s : Kmem) (c pa : Nat) :
    ∃ evs, (kfree L s c pa).state.locks = s.locks ++ evs ∧ Paired evs := by
  by_cases hv : ValidAddr L pa
  · refine ⟨[LockEvent.acquire c, LockEvent.release c], ?_, ⟨rfl, trivial⟩⟩
    obtain ⟨v1, v2, v3⟩ := hv
    have hc : ¬ (pa % PGSIZE ≠ 0 ∨ pa < L.kend ∨ pa ≥ L.PHYSTOP) := by omega
    simp [kfree, if_neg hc, Result.state, acquire, release]
  · rw [kfree_invalid L s c pa hv]
    exact ⟨[], by simp [Result.state], trivial⟩

/-- C15 (at most one lock at a time): in every state, the lock events that one
call of `kalloc` (with its whole steal scan), of `kfree` or of `kfree_first` adds
to the log come in pairs, each `acquire` of a pool lock directly followed by the
`release` of the same lock; so at no point of the call is more than one lock held,
and none is held when the call ends. -/
theorem one_lock_at_a_time (L : Layout) (s : Kmem) (c pa : Nat) :
    (∃ evs, (kalloc L s c).2.locks = s.locks ++ evs ∧ OneLockAtATime evs) ∧
    (∃ evs, (kfree L s c pa).state.locks = s.locks ++ evs ∧ OneLockAtATime evs) ∧
    (∃ evs, (kfree_first L s pa c).state.locks = s.locks ++ evs ∧ OneLockAtATime evs) := by
  refine ⟨?_, ?_, ?_⟩
  · obtain ⟨evs, h1, h2⟩ := kalloc_locks L s c
    exact ⟨evs, h1, OneLockAtATime.of_paired h2⟩
  · obtain ⟨evs, h1, h2⟩ := kfree_locks L s c pa
    exact ⟨evs, h1, OneLockAtATime.of_paired h2⟩
  · obtain ⟨evs, h1, h2⟩ := kfree_locks L s c pa
    exact ⟨evs, by rw [kfree_first_eq]; exact h1, OneLockAtATime.of_paired h2⟩


/-- The steal scan of CPU 0 on the three-CPU configuration: its own lock, then the
lock of pool 1, each released before the next is taken. -/
theorem steal_scan_locks :
    (kalloc threeCpus threeCpusInit 0).2.locks =
      threeCpusInit.locks ++ [LockEvent.acquire 0, LockEvent.release 0,
        LockEvent.acquire 1, LockEvent.release 1] := by
  decide

/-! ## The order of stealing -/

theorem threeCpus_doubleFree :
    kfree threeCpus threeCpusInit 2 4096 = Result.done threeDoubleFreed :=
  Result.eq_done _ (by decide)

/-- Counterexample to C16 as stated: on the three-CPU configuration, `kinit`
followed by `kfree(4096)` on CPU 2 (accepted although the page is free in pool 1)
gives pool 0 the empty list and pools 1 and 2 the list `[4096, 8192]`.  `kalloc()`
on CPU 0 returns the head 4096 of pool 1, the lowest non-empty pool, and pool 1
becomes `[8192]`; but pool 2 does not stay unchanged: page 4096 was filled with
the byte 5, so pool 2 no longer has the list `[4096, 8192]`. -/
theorem steal_order_counterexample :
    kinit threeCpus zeroMem = Result.done threeCpusInit ∧
    kfree threeCpus threeCpusInit 2 4096 = Result.done threeDoubleFreed ∧
    FreeList threeDoubleFreed 0 [] ∧ FreeList threeDoubleFreed 1 [4096, 8192] ∧
    FreeList threeDoubleFreed 2 [4096, 8192] ∧
    (kalloc threeCpus threeDoubleFreed 0).1 = 4096 ∧
    FreeList (kalloc threeCpus threeDoubleFreed 0).2 1 [8192] ∧
    ¬ FreeList (kalloc threeCpus threeDoubleFreed 0).2 2 [4096, 8192] := by
  refine ⟨threeCpus_kinit, threeCpus_doubleFree, ?_, ?_, ?_, ?_, ?_, ?_⟩ <;> decide

/-- C16 (steal order, amended): in every state, if the pool of CPU `c` is empty
and `j` is the lowest index other than `c` of a non-empty pool, then `kalloc()` on
`c` returns the head of the free list of pool `j`, the free list of pool `j`
becomes its tail, and the free list of every other pool (pool `c` and the
lower-numbered pools included) is unchanged provided the returned page does not
occur in it. -/
theorem steal_order (L : Layout) (s : Kmem) (c j : Nat) (lj : List Nat) (hj : j < L.NCPU)
    (hjc : j ≠ c) (hc : FreeList s c []) (hlj : FreeList s j lj) (hne : lj ≠ [])
    (hfirst : ∀ i, i < j → i ≠ c → FreeList s i []) :
    ∃ t, lj = (kalloc L s c).1 :: t ∧ FreeList (kalloc L s c).2 j t ∧
      (∀ d ld, d ≠ j → FreeList s d ld → (kalloc L s c).1 ∉ ld →
        FreeList (kalloc L s c).2 d ld) ∧
      FreeList (kalloc L s c).2 c [] ∧
      (∀ i, i < j → i ≠ c → FreeList (kalloc L s c).2 i []) := by
  have hjne : s.freelist j ≠ 0 := fun h0 => hne ((lseg_nil_iff s.mem _ lj hlj).mp h0)
  have key : Popped s j (kalloc L s c).1 (kalloc L s c).2 := by
    rcases kalloc_spec L s c with ⟨h1, _⟩ | ⟨_, j1, hj1, hj1c, hlow, hpop⟩ | ⟨_, h2, _, _⟩
    · exact absurd hc h1
    · have hj1ne : s.freelist j1 ≠ 0 := by rw [← hpop.1]; exact hpop.2.1
      have e : j1 = j := by
        rcases Nat.lt_trichotomy j1 j with hlt | heq | hgt
        · exact absurd (hfirst j1 hlt hj1c) hj1ne
        · exact heq
        · exact absurd (hlow j hgt hjc) hjne
      rw [← e]; exact hpop
    · exact absurd (h2 j hj hjc) hjne
  obtain ⟨⟨t, ht, hjt⟩, hother⟩ := key.pop_lists hlj
  refine ⟨t, ht, hjt, hother, ?_, ?_⟩
  · exact hother c [] (Ne.symm hjc) hc (List.not_mem_nil _)
  · intro i hi hic
    exact hother i [] (by omega) (hfirst i hi hic) (List.not_mem_nil _)

/-- Witness for C16: CPU 0 of the three-CPU configuration steals from pool 1. -/
theorem steal_order_witness :
    1 < threeCpus.NCPU ∧ 1 ≠ 0 ∧ FreeList threeCpusInit 0 [] ∧
    FreeList threeCpusInit 1 [4096] ∧ [4096] ≠ [] ∧
    (∀ i, i < 1 → i ≠ 0 → FreeList threeCpusInit i []) ∧
    ∃ t, [4096] = (kalloc threeCpus threeCpusInit 0).1 :: t ∧
      FreeList (kalloc threeCpus threeCpusInit 0).2 1 t ∧
      (∀ d ld, d ≠ 1 → FreeList threeCpusInit d ld →
        (kalloc threeCpus threeCpusInit 0).1 ∉ ld →
        FreeList (kalloc threeCpus threeCpusInit 0).2 d ld) ∧
      FreeList (kalloc threeCpus threeCpusInit 0).2 0 [] ∧
      (∀ i, i < 1 → i ≠ 0 → FreeList (kalloc threeCpus threeCpusInit 0).2 i []) :=
  ⟨by decide, by decide, by decide, by decide, by decide, by decide,
    steal_order threeCpus threeCpusInit 0 1 [4096] (by decide) (by decide) (by decide)
      (by decide) (by decide) (by decide)⟩

/-! ## Double free -/

/-- C18 (no double-free check): the state after `kinit` on the two-page
configuration has the duplicate-free free lists `[8192]` and `[4096]`; page 4096
is a valid address and is free in pool 1.  `kfree(4096)` on CPU 0 does not panic
and returns, and afterwards both pools have the free list `[4096, 8192]`, so page
4096 occurs twice in the pools' free lists.  In general `kfree` returns exactly
when the address is page-aligned and inside `[end, PHYSTOP)`, whatever the state. -/
theorem no_double_free_check :
    Pools twoPages.NCPU twoPagesInit (initLists 2 4096 2) ∧
    initLists 2 4096 2 0 = [8192] ∧ initLists 2 4096 2 1 = [4096] ∧
    ValidAddr twoPages 4096 ∧ 4096 ∈ allFree twoPages.NCPU (initLists 2 4096 2) ∧
    kfree twoPages twoPagesInit 0 4096 = Result.done doubleFreed ∧
    FreeList doubleFreed 0 [4096, 8192] ∧ FreeList doubleFreed 1 [4096, 8192] ∧
    (allFree twoPages.NCPU (fun _ => [4096, 8192])).count 4096 = 2 ∧
    ¬ (allFree twoPages.NCPU (fun _ => [4096, 8192])).Nodup ∧
    (∀ (L : Layout) (s : Kmem) (c pa : Nat),
      (∃ s1, kfree L s c pa = Result.done s1) ↔ ValidAddr L pa) := by
  refine ⟨Pools.of_nodup (by decide) (by decide), by decide, by decide, by decide, by decide,
    twoPages_doubleFree, by decide, by decide, by decide, by decide, ?_⟩
  intro L s c pa
  constructor
  · rintro ⟨s1, h⟩
    by_contra hv
    rw [kfree_invalid L s c pa hv] at h
    cases h
  · intro hv
    obtain ⟨s1, hk, _⟩ := kfree_valid L s c pa hv
    exact ⟨s1, hk⟩

/-! ## Initialisation does not panic -/

theorem freerange_loop_no_panic (L : Layout) (p0 : Nat) (hp0 : p0 % PGSIZE = 0)
    (hk : L.kend ≤ p0) (hw : p0 + PGSIZE < 2 ^ 64) (hP : L.PHYSTOP + PGSIZE < 2 ^ 64) :
    ∀ (room i : Nat) (s : Kmem), (i = 0 ∨ p0 + i * PGSIZE ≤ L.PHYSTOP) →
      (freerange_loop L L.PHYSTOP room (p0 + i * PGSIZE) i s).isPanic = false := by
  intro room
  induction room with
  | zero =>
    intro i s _
    rw [freerange_loop]
    split <;> rfl
  | succ room ih =>
    intro i s hle
    rw [freerange_loop]
    by_cases hc : (p0 + i * PGSIZE + PGSIZE) % 2 ^ 64 ≤ L.PHYSTOP
    · rw [if_pos hc, kfree_first_eq]
      have hlt : p0 + i * PGSIZE + PGSIZE < 2 ^ 64 := by
        unfold PGSIZE at *; omega
      rw [Nat.mod_eq_of_lt hlt] at hc ⊢
      have hv : ValidAddr L (p0 + i * PGSIZE) :=
        ⟨by unfold PGSIZE at *; omega, by unfold PGSIZE at *; omega,
          by unfold PGSIZE at *; omega⟩
      obtain ⟨s2, hk2, _⟩ := kfree_valid L s ((i + 1) % L.NCPU) (p0 + i * PGSIZE) hv
      rw [hk2]
      have e : p0 + i * PGSIZE + PGSIZE = p0 + (i + 1) * PGSIZE := by ring
      simp only
      rw [e]
      exact ih (i + 1) s2 (Or.inr (by rw [← e]; exact hc))
    · rw [if_neg hc]; rfl

/-- Sharpness of the wrap-around condition: with `end = PHYSTOP = 2^64 - 4096` the
sum `p + PGSIZE` of the loop condition wraps to 0, the loop body runs for
`p = PHYSTOP`, and `kfree_first` panics. -/
theorem kinit_wraps_top :
    topOfMemory.PHYSTOP % PGSIZE = 0 ∧ topOfMemory.kend ≤ topOfMemory.PHYSTOP ∧
    (kinit topOfMemory zeroMem).isPanic = true := by
  refine ⟨?_, ?_, ?_⟩ <;> decide

/-- No panic without a bound on the number of pages: for a page-aligned `PHYSTOP`
with `end ≤ PHYSTOP` and `PHYSTOP + 4096 < 2^64`, `kinit` does not end in the
panic of `kfree_first` (it returns, or the `int` counter overflows). -/
theorem kinit_not_panic (L : Layout) (mem0 : Mem) (hal : L.PHYSTOP % PGSIZE = 0)
    (hle : L.kend ≤ L.PHYSTOP) (hw : L.PHYSTOP + PGSIZE < 2 ^ 64) :
    (kinit L mem0).isPanic = false := by
  unfold kinit freerange
  have h0 : PGROUNDUP L.kend = PGROUNDUP L.kend + 0 * PGSIZE := by simp
  have hge : L.kend ≤ PGROUNDUP L.kend ∧ PGROUNDUP L.kend < L.kend + PGSIZE := by
    unfold PGROUNDUP PGSIZE at *; omega
  rw [h0]
  exact freerange_loop_no_panic L (PGROUNDUP L.kend) (PGROUNDUP_aligned _) hge.1
    (by unfold PGSIZE at *; omega) hw INT_MAX 0 (boot mem0) (Or.inl rfl)

theorem kfree_valid_locks (L : Layout) (s : Kmem) (c p : Nat) (h : ValidAddr L p) :
    ∃ s1, kfree L s c p = Result.done s1 ∧
      s1.locks = s.locks ++ [LockEvent.acquire c, LockEvent.release c] := by
  obtain ⟨h1, h2, h3⟩ := h
  have hc : ¬ (p % PGSIZE ≠ 0 ∨ p < L.kend ∨ p ≥ L.PHYSTOP) := by omega
  unfold kfree
  simp only [if_neg hc]
  exact ⟨_, rfl, by simp [release, acquire]⟩

theorem initLocks_index (N : Nat) (hN : 0 < N) :
    ∀ n e, e ∈ initLocks N n → e.index < N := by
  intro n
  induction n with
  | zero => intro e he; cases he
  | succ n ih =>
    intro e he
    rw [initLocks, List.mem_append] at he
    rcases he with he | he
    · exact ih e he
    · simp only [List.mem_cons, List.mem_singleton, List.not_mem_nil, or_false] at he
      rcases he with rfl | rfl
      · exact Nat.mod_lt _ hN
      · exact Nat.mod_lt _ hN

/-- The loop of `freerange` when nothing wraps and the pages fit the counter: it
returns, its lock events are those of `initLocks`, and it stops at `PHYSTOP`. -/
theorem freerange_loop_log (L : Layout) (p0 : Nat) (hp0 : p0 % PGSIZE = 0)
    (hk : L.kend ≤ p0) (hal : L.PHYSTOP % PGSIZE = 0) (hP : L.PHYSTOP + PGSIZE < 2 ^ 64)
    (hn : L.PHYSTOP < p0 + (INT_MAX + 1) * PGSIZE) :
    ∀ (room i : Nat) (s : Kmem), i + room = INT_MAX → p0 + i * PGSIZE ≤ L.PHYSTOP →
      s.locks = initLocks L.NCPU i →
      ∃ s1 n, freerange_loop L L.PHYSTOP room (p0 + i * PGSIZE) i s = Result.done s1 ∧
        n ≤ INT_MAX ∧ s1.locks = initLocks L.NCPU n ∧ p0 + n * PGSIZE = L.PHYSTOP := by
  intro room
  induction room with
  | zero =>
    intro i s hi hle hlog
    have hc : ¬ (p0 + i * PGSIZE + PGSIZE) % 2 ^ 64 ≤ L.PHYSTOP := by
      unfold PGSIZE INT_MAX at *; omega
    refine ⟨s, i, ?_, by omega, hlog, ?_⟩
    · rw [freerange_loop, if_neg hc]
    · unfold PGSIZE INT_MAX at *; omega
  | succ room ih =>
    intro i s hi hle hlog
    by_cases hc : (p0 + i * PGSIZE + PGSIZE) % 2 ^ 64 ≤ L.PHYSTOP
    · have hlt : p0 + i * PGSIZE + PGSIZE < 2 ^ 64 := by
        unfold PGSIZE at *; omega
      have hc2 : p0 + i * PGSIZE + PGSIZE ≤ L.PHYSTOP := by
        rw [Nat.mod_eq_of_lt hlt] at hc; exact hc
      have hv : ValidAddr L (p0 + i * PGSIZE) :=
        ⟨by unfold PGSIZE at *; omega, by unfold PGSIZE at *; omega,
          by unfold PGSIZE at *; omega⟩
      obtain ⟨s2, hk2, hl2⟩ :=
        kfree_valid_locks L s ((i + 1) % L.NCPU) (p0 + i * PGSIZE) hv
      have e : p0 + i * PGSIZE + PGSIZE = p0 + (i + 1) * PGSIZE := by ring
      have hlog2 : s2.locks = initLocks L.NCPU (i + 1) := by
        rw [hl2, hlog, initLocks]
      obtain ⟨s1, n, h1, h2, h3, h4⟩ :=
        ih (i + 1) s2 (by omega) (by rw [← e]; exact hc2) hlog2
      refine ⟨s1, n, ?_, h2, h3, h4⟩
      rw [freerange_loop, if_pos hc, kfree_first_eq, hk2, Nat.mod_eq_of_lt hlt]
      simp only
      rw [e]; exact h1
    · refine ⟨s, i, ?_, by omega, hlog, ?_⟩
      · rw [freerange_loop, if_neg hc]
      · unfold PGSIZE at *; omega

/-- The loop of `freerange` on a range with more than `INT_MAX` whole pages: the
`int` counter overflows. -/
theorem freerange_loop_overflows (L : Layout) (p0 : Nat) (hp0 : p0 % PGSIZE = 0)
    (hk : L.kend ≤ p0) (hP : L.PHYSTOP + PGSIZE < 2 ^ 64)
    (hmany : p0 + (INT_MAX + 1) * PGSIZE ≤ L.PHYSTOP) :
    ∀ (room i : Nat) (s : Kmem), i + room = INT_MAX →
      freerange_loop L L.PHYSTOP room (p0 + i * PGSIZE) i s = Result.overflow := by
  intro room
  induction room with
  | zero =>
    intro i s hi
    have hc : (p0 + i * PGSIZE + PGSIZE) % 2 ^ 64 ≤ L.PHYSTOP := by
      unfold PGSIZE INT_MAX at *; omega
    rw [freerange_loop, if_pos hc]
  | succ room ih =>
    intro i s hi
    have hlt : p0 + i * PGSIZE + PGSIZE < 2 ^ 64 := by
      unfold PGSIZE INT_MAX at *; omega
    have hc : (p0 + i * PGSIZE + PGSIZE) % 2 ^ 64 ≤ L.PHYSTOP := by
      unfold PGSIZE INT_MAX at *; omega
    have hv : ValidAddr L (p0 + i * PGSIZE) :=
      ⟨by unfold PGSIZE at *; omega, by unfold PGSIZE at *; omega,
        by unfold PGSIZE INT_MAX at *; omega⟩
    obtain ⟨s2, hk2, _⟩ := kfree_valid L s ((i + 1) % L.NCPU) (p0 + i * PGSIZE) hv
    have e : p0 + i * PGSIZE + PGSIZE = p0 + (i + 1) * PGSIZE := by ring
    rw [freerange_loop, if_pos hc, kfree_first_eq, hk2, Nat.mod_eq_of_lt hlt]
    simp only
    rw [e]
    exact ih (i + 1) s2 (by omega)

/-- When the counter overflows: `kinit` ends in the overflow of `i` whenever nothing
wraps around `2^64` and the range holds more than `INT_MAX` whole pages. -/
theorem kinit_overflows (L : Layout) (mem0 : Mem) (hle : L.kend ≤ L.PHYSTOP)
    (hP : L.PHYSTOP + PGSIZE < 2 ^ 64)
    (hmany : PGROUNDUP L.kend + (INT_MAX + 1) * PGSIZE ≤ L.PHYSTOP) :
    kinit L mem0 = Result.overflow := by
  unfold kinit freerange
  have h0 : PGROUNDUP L.kend = PGROUNDUP L.kend + 0 * PGSIZE := by simp
  have hge : L.kend ≤ PGROUNDUP L.kend ∧ PGROUNDUP L.kend < L.kend + PGSIZE := by
    unfold PGROUNDUP PGSIZE INT_MAX at *; omega
  rw [h0]
  exact freerange_loop_overflows L (PGROUNDUP L.kend) (PGROUNDUP_aligned _) hge.1 hP
    hmany INT_MAX 0 (boot mem0) (by simp)

/-- Counterexample to C19 as stated: `PHYSTOP = 2^45` is page-aligned, lies above
`end = 4096`, and no address computation wraps around `2^64`; yet `kinit` does
not run through with pool indices `i % NCPU` in `[0, NCPU)`: after `INT_MAX`
pages there are pages left, and the increment `i++` overflows the `int` counter
(undefined behaviour in C; with the usual wrap-around the counter becomes `-2^31`,
and `-2^31 % 3` is `-2`). -/
theorem kinit_no_panic_counterexample :
    hugeRange.PHYSTOP % PGSIZE = 0 ∧ hugeRange.kend ≤ hugeRange.PHYSTOP ∧
    hugeRange.PHYSTOP + PGSIZE < 2 ^ 64 ∧
    PGROUNDUP hugeRange.kend + (INT_MAX + 1) * PGSIZE ≤ hugeRange.PHYSTOP ∧
    kinit hugeRange zeroMem = Result.overflow ∧
    (kinit hugeRange zeroMem).isDone = false := by
  have h : kinit hugeRange zeroMem = Result.overflow :=
    kinit_overflows hugeRange zeroMem (by decide) (by decide) (by decide)
  refine ⟨by decide, by decide, by decide, by decide, h, ?_⟩
  rw [h]; rfl

/-- C19 (initialisation never panics, amended): for every `end` and every
page-aligned `PHYSTOP` with `end ≤ PHYSTOP`, for which `p + PGSIZE` cannot wrap
around `2^64` (`PHYSTOP + 4096 < 2^64`) and the range holds at most `INT_MAX`
whole pages (`PHYSTOP < PGROUNDUP(end) + 2^31 * 4096`), `kinit` returns: it
reaches neither the panic of
`kfree_first` nor an overflow of the counter `i`.  It makes `n ≤ INT_MAX` calls
`kfree_first(p, i % NCPU)`, for `i = 1, ..., n`, as its lock events record; every
pool index used lies below `NCPU`; the addresses iterated are
`PGROUNDUP(end) + k * 4096` for `k < n`, up to `PHYSTOP`, each page-aligned and
inside `[end, PHYSTOP)`; and they are the pages of the free lists. -/
theorem kinit_no_panic (L : Layout) (mem0 : Mem) (hal : L.PHYSTOP % PGSIZE = 0)
    (hle : L.kend ≤ L.PHYSTOP) (hw : L.PHYSTOP + PGSIZE < 2 ^ 64)
    (hfit : L.PHYSTOP < PGROUNDUP L.kend + (INT_MAX + 1) * PGSIZE) :
    ∃ s n, kinit L mem0 = Result.done s ∧ n ≤ INT_MAX ∧
      s.locks = initLocks L.NCPU n ∧
      (∀ e, e ∈ s.locks → e.index < L.NCPU) ∧
      (∀ k, k < n → ValidAddr L (PGROUNDUP L.kend + k * PGSIZE)) ∧
      PGROUNDUP L.kend + n * PGSIZE = L.PHYSTOP ∧
      (∀ c, c < L.NCPU → FreeList s c (initLists L.NCPU (PGROUNDUP L.kend) n c)) := by
  have hal0 := PGROUNDUP_aligned L.kend
  have hge : L.kend ≤ PGROUNDUP L.kend ∧ PGROUNDUP L.kend ≤ L.PHYSTOP := by
    unfold PGROUNDUP PGSIZE at *; omega
  obtain ⟨s, n, hdone, hnle, hlocks, heq⟩ :=
    freerange_loop_log L (PGROUNDUP L.kend) hal0 hge.1 hal hw
      hfit INT_MAX 0 (boot mem0) (by simp)
      (by simpa using hge.2) rfl
  have hkinit : kinit L mem0 = Result.done s := by
    unfold kinit freerange
    have h0 : PGROUNDUP L.kend = PGROUNDUP L.kend + 0 * PGSIZE := by simp
    rw [h0]; exact hdone
  obtain ⟨n1, _, hp, hv, hexit⟩ := kinit_spec L mem0 s hkinit
  have hnn : n1 = n := by
    rcases Nat.lt_or_ge n n1 with h | h
    · have := (hv n h).2
      unfold PGSIZE at *; omega
    · unfold PGSIZE at *; omega
  subst hnn
  refine ⟨s, n1, hkinit, hnle, hlocks, ?_, fun k hk => (hv k hk).1, heq, hp.repr⟩
  intro e he
  rw [hlocks] at he
  exact initLocks_index L.NCPU L.NCPU_pos n1 e he

/-- Witness for C19: the two-page configuration. -/
theorem kinit_no_panic_witness :
    twoPages.PHYSTOP % PGSIZE = 0 ∧ twoPages.kend ≤ twoPages.PHYSTOP ∧
    twoPages.PHYSTOP + PGSIZE < 2 ^ 64 ∧
    twoPages.PHYSTOP < PGROUNDUP twoPages.kend + (INT_MAX + 1) * PGSIZE ∧
    ∃ s n, kinit twoPages zeroMem = Result.done s ∧ n ≤ INT_MAX ∧
      s.locks = initLocks twoPages.NCPU n ∧
      (∀ e, e ∈ s.locks → e.index < twoPages.NCPU) ∧
      (∀ k, k < n → ValidAddr twoPages (PGROUNDUP twoPages.kend + k * PGSIZE)) ∧
      PGROUNDUP twoPages.kend + n * PGSIZE = twoPages.PHYSTOP ∧
      (∀ c, c < twoPages.NCPU →
        FreeList s c (initLists twoPages.NCPU (PGROUNDUP twoPages.kend) n c)) :=
  ⟨by decide, by decide, by decide, by decide,
    kinit_no_panic twoPages zeroMem (by decide) (by decide) (by decide) (by decide)⟩

/-- The lock events of `kinit` on the two-page configuration: page 4096 goes to
pool 1, page 8192 to pool 0. -/
theorem twoPages_locks :
    twoPagesInit.locks = [LockEvent.acquire 1, LockEvent.release 1,
      LockEvent.acquire 0, LockEvent.release 0] ∧
    initLocks 2 2 = twoPagesInit.locks := by
  constructor <;> decide

/-! ## Order of the lists built by `kinit` -/

theorem mod_gap (N k n : Nat) (hkn : k < n) (hle : n ≤ k + N)
    (hmod : (k + 1) % N = (n + 1) % N) : n = k + N := by
  have h0 : (n + 1 - (k + 1)) % N = 0 := Nat.sub_mod_eq_zero_of_mod_eq hmod.symm
  have hd : N ∣ n + 1 - (k + 1) := Nat.dvd_of_mod_eq_zero h0
  have hpos : 0 < n + 1 - (k + 1) := by omega
  have := Nat.le_of_dvd hpos hd
  omega

theorem initLists_chain (N p0 : Nat) :
    ∀ n c, c < N →
      List.Chain' (fun a b => a = b + N * PGSIZE) (initLists N p0 n c) ∧
      ∀ a t, initLists N p0 n c = a :: t →
        ∃ k, k < n ∧ (k + 1) % N = c ∧ n ≤ k + N ∧ a = p0 + k * PGSIZE := by
  intro n
  induction n with
  | zero =>
    intro c _
    refine ⟨List.chain'_nil, fun a t h => ?_⟩
    simp [initLists] at h
  | succ n ih =>
    intro c hc
    obtain ⟨hch, hhead⟩ := ih c hc
    rw [initLists]
    by_cases hcc : c = (n + 1) % N
    · rw [← hcc, setList_same]
      refine ⟨?_, fun a t h => ?_⟩
      · rw [List.chain'_cons']
        refine ⟨fun y hy => ?_, hch⟩
        cases hl : initLists N p0 n c with
        | nil => rw [hl] at hy; simp at hy
        | cons b t =>
          rw [hl] at hy
          simp only [List.head?_cons, Option.mem_def, Option.some.injEq] at hy
          obtain ⟨k, k1, k2, k3, k4⟩ := hhead b t hl
          have hnk : n = k + N := mod_gap N k n k1 k3 (by rw [k2, hcc])
          rw [← hy, k4, hnk]; ring
      · injection h with h1 _
        exact ⟨n, by omega, hcc.symm, by omega, h1.symm⟩
    · rw [setList_other _ _ _ _ hcc]
      refine ⟨hch, fun a t h => ?_⟩
      obtain ⟨k, k1, k2, k3, k4⟩ := hhead a t h
      refine ⟨k, by omega, k2, ?_, k4⟩
      by_contra hlt
      have hnk : n = k + N := by omega
      apply hcc
      rw [← k2, hnk, Nat.add_right_comm, Nat.add_mod_right]

/-- C20 (LIFO order after init): whenever `kinit` returns, the free list of every
pool is in strictly decreasing address order from head to tail, consecutive
elements differing by exactly `NCPU * 4096`; so on a CPU whose pool is not empty
the first `kalloc()` returns an address of that pool's list that is at least as
high as every address in it. -/
theorem init_lifo (L : Layout) (mem0 : Mem) (s : Kmem)
    (h : kinit L mem0 = Result.done s) :
    ∃ ls : Nat → List Nat, (∀ c, c < L.NCPU → FreeList s c (ls c)) ∧
      (∀ c, c < L.NCPU → List.Chain' (fun a b => a = b + L.NCPU * PGSIZE) (ls c)) ∧
      (∀ c, c < L.NCPU → List.Pairwise (fun a b => b < a) (ls c)) ∧
      (∀ c, c < L.NCPU → ls c ≠ [] →
        (kalloc L s c).1 ∈ ls c ∧ ∀ a, a ∈ ls c → a ≤ (kalloc L s c).1) := by
  obtain ⟨n, _, hp, _, _⟩ := kinit_spec L mem0 s h
  have hchain := fun c hc =>
    (initLists_chain L.NCPU (PGROUNDUP L.kend) n c hc).1
  have hpair : ∀ c, c < L.NCPU →
      List.Pairwise (fun a b => b < a) (initLists L.NCPU (PGROUNDUP L.kend) n c) := by
    intro c hc
    have hgt : List.Chain' (fun a b : Nat => b < a) (initLists L.NCPU (PGROUNDUP L.kend) n c) := by
      refine List.Chain'.imp ?_ (hchain c hc)
      intro a b hab
      have := L.NCPU_pos
      have hpos : 0 < L.NCPU * PGSIZE := Nat.mul_pos this (by decide)
      omega
    haveI : IsTrans Nat (fun a b => b < a) := ⟨fun a b c hab hbc => Nat.lt_trans hbc hab⟩
    exact List.chain'_iff_pairwise.mp hgt
  refine ⟨_, hp.repr, hchain, hpair, ?_⟩
  intro c hc hne
  have hcne : s.freelist c ≠ 0 :=
    fun h0 => hne ((lseg_nil_iff s.mem _ _ (hp.repr c hc)).mp h0)
  rcases kalloc_spec L s c with ⟨_, hpop⟩ | ⟨h0, _⟩ | ⟨h0, _⟩
  · obtain ⟨⟨t, ht, _⟩, _⟩ := hpop.pop_lists (hp.repr c hc)
    have hpw := hpair c hc
    rw [ht] at hpw ⊢
    refine ⟨List.mem_cons_self _ t, fun a ha => ?_⟩
    rcases List.mem_cons.mp ha with rfl | ha
    · exact le_refl _
    · exact Nat.le_of_lt ((List.pairwise_cons.mp hpw).1 a ha)
  · exact absurd h0 hcne
  · exact absurd h0 hcne

theorem oneCpu_kinit : kinit oneCpu zeroMem = Result.done oneCpuInit :=
  Result.eq_done _ (by decide)

/-- The single pool of the one-CPU configuration after `kinit`: the higher page is
the head. -/
theorem oneCpu_lists :
    FreeList oneCpuInit 0 [8192, 4096] ∧ (kalloc oneCpu oneCpuInit 0).1 = 8192 := by
  constructor <;> decide

/-- Witness for C20: `kinit` returns on the one-CPU configuration. -/
theorem init_lifo_witness :
    kinit oneCpu zeroMem = Result.done oneCpuInit ∧
    ∃ ls : Nat → List Nat, (∀ c, c < oneCpu.NCPU → FreeList oneCpuInit c (ls c)) ∧
      (∀ c, c < oneCpu.NCPU →
        List.Chain' (fun a b => a = b + oneCpu.NCPU * PGSIZE) (ls c)) ∧
      (∀ c, c < oneCpu.NCPU → List.Pairwise (fun a b => b < a) (ls c)) ∧
      (∀ c, c < oneCpu.NCPU → ls c ≠ [] →
        (kalloc oneCpu oneCpuInit c).1 ∈ ls c ∧
          ∀ a, a ∈ ls c → a ≤ (kalloc oneCpu oneCpuInit c).1) :=
  ⟨oneCpu_kinit, init_lifo oneCpu zeroMem oneCpuInit oneCpu_kinit⟩

end Kalloc
